import Mathlib

/-!
Verification development for the ledger persistence layer
(`src/omnicore/persistence.cpp`): the flat-file checkpoint store and the
`CMPTxList` transaction metadata index.

The LevelDB-backed index is shallowly embedded as a list of
(key, value) pairs kept sorted in the byte order induced by the typed
key serialization of the source: a single schema tag byte followed by
field encodings (`BigEndian32Inv` fields sort descending, the remaining
fields ascending).  Iterators become list traversals over the sorted
list.
-/

/-- Strict lexicographic order on field lists, mirroring byte-string
comparison of the serialized key fields. -/
def lexLt : List Nat → List Nat → Bool
  | _, [] => false
  | [], _ :: _ => true
  | a :: as, b :: bs => decide (a < b) || (a == b && lexLt as bs)

/-- Largest unsigned 32-bit value, `~0u` in the source. -/
def UINT32_MAX : Nat := 4294967295

/-- Bit inversion of a `uint32_t`, the `BigEndian32Inv` field encoding: the
byte order of the encoded field is the reverse of the numeric order, so
scans over such a field run from the highest value downwards. -/
def inv32 (n : Nat) : Nat := UINT32_MAX - n % 4294967296

/-- Typed keys of the `CMPTxList` database, one constructor per key
schema of the source (`CBlockTxKey`, `CMPTxList::CTxKey`,
`CPaymentTxKey`, `CDexCancelTxKey`, `CDexTxToCancelKey`, `CSendAllTxKey`,
`CNonFugibleKey`, `CDBVersionKey`).  A 256-bit txid is abstracted as a
`Nat`; all other fields carry the numeric value held by the C++ struct
field (after any call-site integral conversion). -/
inductive DBKey
  | dbver
  | blockTx (block : Nat) (txid : Nat)
  | cancel (txid : Nat) (affected : Nat) (block : Nat) (valid : Nat)
  | txToCancel (txid : Nat)
  | nonFungible (txid : Nat)
  | payment (txid : Nat) (payments : Nat) (block : Nat) (valid : Nat)
  | sendAll (txid : Nat) (num : Nat)
  | txRec (txid : Nat) (block : Nat) (valid : Nat) (type : Nat)
deriving DecidableEq

/-- The single schema tag byte stored in front of each serialized key
(`static constexpr uint8_t prefix = ...` in the source). -/
def DBKey.tag : DBKey → Nat
  | .dbver => 68
  | .blockTx _ _ => 98
  | .cancel _ _ _ _ => 99
  | .txToCancel _ => 101
  | .nonFungible _ => 110
  | .payment _ _ _ _ => 112
  | .sendAll _ _ => 115
  | .txRec _ _ _ _ => 116

def tagBlockTx : Nat := 98
def tagCancel : Nat := 99
def tagTxToCancel : Nat := 101
def tagPayment : Nat := 112
def tagSendAll : Nat := 115
def tagTxRec : Nat := 116

/-- The serialized key fields of each schema in serialization order, with
`BigEndian32Inv` fields replaced by their bit inversion so that the
numeric order of the list mirrors the byte order of the encoding.
Varint-encoded trailing fields are compared numerically; no operation of
the source distinguishes their byte order once the leading fields are
fixed. -/
def DBKey.fields : DBKey → List Nat
  | .dbver => []
  | .blockTx b t => [inv32 b, t]
  | .cancel t a b v => [t, inv32 a, b, v]
  | .txToCancel t => [t]
  | .nonFungible t => [t]
  | .payment t p b v => [t, inv32 p, b, v]
  | .sendAll t n => [t, inv32 n]
  | .txRec t b v ty => [t, b, v, ty]

/-- Byte order on serialized keys: the schema tag byte first, then the
encoded fields lexicographically. -/
def keyLtB (a b : DBKey) : Bool :=
  decide (a.tag < b.tag) || (a.tag == b.tag && lexLt a.fields b.fields)

/-- Values stored in the `CMPTxList` database, one constructor per value
shape of the source (the empty string of block index rows, the
`uint64_t` payload of primary records, `CPaymentTxValue`,
`CDexCancelTxValue`, `CSendAllTxValue`, the txid stored under
`CDexTxToCancelKey`, and the pair stored under `CNonFugibleKey`). -/
inductive DBValue
  | empty
  | num (n : Nat)
  | txidV (t : Nat)
  | paymentV (vout : Nat) (buyer : String) (seller : String) (propertyId : Nat) (amount : Nat)
  | cancelV (propertyId : Nat) (amount : Nat)
  | sendAllV (propertyId : Nat) (amount : Int)
  | rangeV (tokStart : Int) (tokEnd : Int)
deriving DecidableEq

/-- A database state: the rows in ascending byte order of their keys. -/
abbrev DB := List (DBKey × DBValue)

/-- The sortedness invariant of a LevelDB snapshot: rows appear in
strictly ascending key byte order. -/
abbrev DBSorted (db : DB) : Prop :=
  List.Pairwise (fun a b => keyLtB a.1 b.1 = true) db

/-- Well-formed states: every `BigEndian32Inv`-encoded field holds a
value that fits in 32 bits (they are written from `uint32_t` fields),
reverse cancel-link rows store a txid, and primary records store the
`uint64_t` payload written by `recordTX`. -/
def rowWF : DBKey × DBValue → Bool
  | (.dbver, _) => true
  | (.blockTx b _, _) => decide (b < 4294967296)
  | (.cancel _ a _ _, _) => decide (a < 4294967296)
  | (.txToCancel _, v) => match v with | .txidV _ => true | _ => false
  | (.nonFungible _, _) => true
  | (.payment _ p _ _, _) => decide (p < 4294967296)
  | (.sendAll _ n, _) => decide (n < 4294967296)
  | (.txRec _ _ _ _, v) => match v with | .num _ => true | _ => false

def DBWF (db : DB) : Bool := db.all rowWF

/-- Modelled from the spec: `CDBaseIterator` and `PartialKey` live in
`dbbase.h`, which is not among the provided sources.  Per the spec
(section 4.1), iteration seeked at the byte prefix of a partial key
(schema tag plus leading txid field) "returns exactly the rows sharing
that prefix, in the schema's declared sort order, and nothing else":
the traversal drops the rows strictly below the prefix and stops as soon
as a row no longer carries the prefix. -/
def scanSub (db : DB) (t x : Nat) : DB :=
  (db.dropWhile fun e =>
      decide (e.1.tag < t) || (e.1.tag == t && decide (e.1.fields.headD 0 < x))).takeWhile
    fun e => e.1.tag == t && e.1.fields.headD 0 == x

/-- Modelled from the spec: iteration seeked at a full typed key
(`CDBaseIterator it{NewIterator(), key}` or `it.Seek(key)`) positions at
the first row whose serialized key is not below the seek key and, per the
spec (section 4.1), stays within the seek key's schema: the loops of the
source that seek a full `CBlockTxKey` or `CDexTxToCancelKey` iterate the
rows of that single schema. -/
def seekTag (db : DB) (k : DBKey) : DB :=
  (db.dropWhile fun e => keyLtB e.1 k).takeWhile fun e => e.1.tag == k.tag

/-- A LevelDB `Write` (a put): insert into the sorted row list,
replacing the value when the key is already present. -/
def dbPut (db : DB) (k : DBKey) (v : DBValue) : DB :=
  match db with
  | [] => [(k, v)]
  | e :: rest =>
    if keyLtB k e.1 then (k, v) :: e :: rest
    else if k = e.1 then (k, v) :: rest
    else e :: dbPut rest k v

/-- Decoder `it.Key<CPaymentTxKey>().payments`; on a key of another
schema the source's typed read yields a default-constructed key whose
`payments` field is `~0u`. -/
def DBKey.paymentsOf : DBKey → Nat
  | .payment _ p _ _ => p
  | _ => UINT32_MAX

/-- Decoder `it.Key<CSendAllTxKey>().num` with the same default. -/
def DBKey.numOf : DBKey → Nat
  | .sendAll _ n => n
  | _ => UINT32_MAX

/-- The `valid` field of a primary or payment key (0 on other schemas). -/
def DBKey.validOf : DBKey → Nat
  | .payment _ _ _ v => v
  | .txRec _ _ v _ => v
  | _ => 0

/-- The `block` field of a primary or payment key (0 on other schemas). -/
def DBKey.blockOf : DBKey → Nat
  | .payment _ _ b _ => b
  | .txRec _ b _ _ => b
  | _ => 0

/-- The `type` field of a primary key (0 on other schemas). -/
def DBKey.typeOf : DBKey → Nat
  | .txRec _ _ _ ty => ty
  | _ => 0

/-- Decoder `it.Key<CBlockTxKey>()`, with the default-constructed
`CBlockTxKey` (`block = ~0u`, zero txid) on schema mismatch. -/
def decodeBlockTx : DBKey → Nat × Nat
  | .blockTx b t => (b, t)
  | _ => (UINT32_MAX, 0)

/-- Decoder `it.Value<uint256>()` for reverse cancel-link rows; a
default (zero) id on a value of another shape. -/
def decodeTxidV : DBValue → Nat
  | .txidV t => t
  | _ => 0

/-- `CMPTxList::recordTX`: writes the block index row (with the block
cast to `uint32_t`) and the primary record keyed by txid, block,
validity flag and type, holding the numeric payload.  The overwrite
detection of the source only logs and does not change state. -/
def recordTX (db : DB) (txid : Nat) (fValid : Bool) (nBlock : Nat) (type : Nat) (nValue : Nat) : DB :=
  dbPut (dbPut db (.blockTx (nBlock % 4294967296) txid) .empty)
    (.txRec txid nBlock (if fValid then 1 else 0) type) (.num nValue)

/-- `CMPTxList::recordPaymentTX`: seeks the payment sub-schema prefix of
the txid; the first row found (the one with the highest `payments`
number, since that field is stored bit-inverted) plus one becomes the
new sub-record number, or 1 when no row exists; then writes the block
index row and the payment sub-record. -/
def recordPaymentTX (db : DB) (txid : Nat) (fValid : Bool) (nBlock : Nat)
    (vout propertyId : Nat) (nValue : Nat) (buyer seller : String) : DB :=
  let it := scanSub db tagPayment txid
  let numberOfPayments : Nat :=
    match it.head? with
    | some e => (e.1.paymentsOf + 1) % 4294967296
    | none => 1
  dbPut (dbPut db (.blockTx (nBlock % 4294967296) txid) .empty)
    (.payment txid numberOfPayments nBlock (if fValid then 1 else 0))
    (.paymentV vout buyer seller propertyId nValue)

/-- `CMPTxList::recordSendAllSubRecord`: writes the send-all sub-record
under the caller-supplied `subRecordNumber` (cast to `uint32_t`) and the
block index row.  No prefix seek is performed by this function. -/
def recordSendAllSubRecord (db : DB) (txid : Nat) (nBlock : Nat)
    (subRecordNumber : Nat) (propertyId : Nat) (nValue : Int) : DB :=
  dbPut (dbPut db (.sendAll txid (subRecordNumber % 4294967296)) (.sendAllV propertyId nValue))
    (.blockTx (nBlock % 4294967296) txid) .empty

/-- `CMPTxList::getNumberOfSubRecords`: the `payments` number of the
first row of the payment prefix scan if that scan finds anything,
otherwise the `num` of the first row of the send-all prefix scan,
otherwise 0. -/
def getNumberOfSubRecords (db : DB) (txid : Nat) : Nat :=
  match (scanSub db tagPayment txid).head? with
  | some e => e.1.paymentsOf
  | none =>
    match (scanSub db tagSendAll txid).head? with
    | some e => e.1.numOf
    | none => 0

/-- `CMPTxList::getTX`: seeks the primary-record prefix of the txid and
reads the first key and its `int64_t` value.  Reading the stored value
back as an `int64_t` is byte-level deserialization done in `dbbase.h`
(not among the sources), so it is passed in as `readV`; on the
`uint64_t` payloads actually written by `recordTX` it returns that
payload. -/
def getTX (readV : DBValue → Option Nat) (db : DB) (txid : Nat) : Option (DBKey × Nat) :=
  match (scanSub db tagTxRec txid).head? with
  | some e =>
    match readV e.2 with
    | some n => some (e.1, n)
    | none => none
  | none => none

/-- Result of `CMPTxList::getValidMPTX`: the returned validity and the
values stored through the three out parameters (`none` when the source
leaves the pointer untouched). -/
structure MPTXInfo where
  validity : Bool
  block : Option Nat
  type : Option Nat
  nAmended : Option Nat
deriving DecidableEq

/-- `CMPTxList::getValidMPTX`: looks up the primary record via `getTX`
and reports its validity flag, block, type and payload; when that fails
it seeks the payment sub-schema prefix and reports the first payment
row's validity flag and block, type 0 and the row's value re-read as an
`int64_t`; otherwise reports not valid and leaves the out parameters
untouched. -/
def getValidMPTX (readV : DBValue → Option Nat) (db : DB) (txid : Nat) : MPTXInfo :=
  match getTX readV db txid with
  | some (k, value) =>
    { validity := decide (0 < k.validOf), block := some k.blockOf
      type := some k.typeOf, nAmended := some value }
  | none =>
    match (scanSub db tagPayment txid).head? with
    | some e =>
      match readV e.2 with
      | some value =>
        { validity := decide (0 < e.1.validOf), block := some e.1.blockOf
          type := some 0, nAmended := some value }
      | none => { validity := false, block := none, type := none, nAmended := none }
    | none => { validity := false, block := none, type := none, nAmended := none }

/-- The collection loop of `CMPTxList::GetOmniTxsInBlockRange`: walk the
block-index rows, stop at the first row whose block is below
`blockFirst`, insert every other txid seen. -/
def collectBlockTxs (blockFirst : Nat) : DB → Finset Nat → Finset Nat
  | [], acc => acc
  | e :: rest, acc =>
    let d := decodeBlockTx e.1
    if d.1 < blockFirst then acc else collectBlockTxs blockFirst rest (insert d.2 acc)

/-- `CMPTxList::GetOmniTxsInBlockRange`: seeks the block-index schema at
`CBlockTxKey{uint32_t(blockLast)}` (zero txid), which is the lowest
possible key for that block in inverted byte order, and collects txids
until a row below `blockFirst` appears.  `retTxs` is the caller's in-out
set. -/
def GetOmniTxsInBlockRange (db : DB) (blockFirst blockLast : Nat) (retTxs : Finset Nat) : Finset Nat :=
  collectBlockTxs blockFirst (seekTag db (.blockTx (blockLast % 4294967296) 0)) retTxs

/-- `DeleteToBatch<T>`: prefix-scan the schema for the txid, stage every
key found for deletion, report whether anything was found. -/
def deleteToBatch (db : DB) (t x : Nat) : List DBKey × Bool :=
  let ks := (scanSub db t x).map (·.1)
  (ks, !ks.isEmpty)

/-- First loop of `CMPTxList::deleteTransactions`: seeks
`CBlockTxKey{}` (block `~0u`, i.e. the lowest block-index key) and
stages every block-index row for deletion until one with block below
`block` appears. -/
def phase1Keys (db : DB) (blk : Nat) : List DBKey :=
  ((seekTag db (.blockTx UINT32_MAX 0)).takeWhile fun e =>
      decide (blk ≤ (decodeBlockTx e.1).1)).map (·.1)

/-- Per-txid body of the second loop of `deleteTransactions`, with the
short-circuit structure of the source: payment rows are only scanned
when no primary row was found, cancel rows only when neither was found;
send-all rows and the reverse link keyed by the txid are always scanned.
The returned flag says whether the txid was inserted into `cancelTxs`
(i.e. its cancel rows were staged). -/
def phase2One (db : DB) (x : Nat) : List DBKey × Bool :=
  let t := deleteToBatch db tagTxRec x
  let p := if t.2 then ([], false) else deleteToBatch db tagPayment x
  let c := if t.2 || p.2 then ([], false) else deleteToBatch db tagCancel x
  let s := deleteToBatch db tagSendAll x
  let e := deleteToBatch db tagTxToCancel x
  (t.1 ++ p.1 ++ c.1 ++ s.1 ++ e.1, c.2)

/-- Second loop of `deleteTransactions` over the listed txids,
accumulating staged keys and the `cancelTxs` set. -/
def phase2 (db : DB) : List Nat → List DBKey × List Nat
  | [] => ([], [])
  | x :: rest =>
    let one := phase2One db x
    let r := phase2 db rest
    (one.1 ++ r.1, (if one.2 then [x] else []) ++ r.2)

/-- Third loop of `deleteTransactions`: walk the reverse cancel-link
rows while `cancelTxs` is non-empty; a row whose stored cancelling txid
is still in the set is staged for deletion and that txid is erased from
the set. -/
def phase3Keys : DB → List Nat → List DBKey
  | [], _ => []
  | e :: rest, cancels =>
    if cancels.isEmpty then []
    else
      let x := decodeTxidV e.2
      if x ∈ cancels then e.1 :: phase3Keys rest (cancels.erase x)
      else phase3Keys rest cancels

/-- `CMPTxList::deleteTransactions`: stages the three loops' deletions
into one write batch over the unmodified database and applies the batch
at the end. -/
def deleteTransactions (db : DB) (txs : List Nat) (blk : Nat) : DB :=
  let p2 := phase2 db txs
  let delKeys := phase1Keys db blk ++ p2.1 ++ phase3Keys (seekTag db (.txToCancel 0)) p2.2
  db.filter fun e => !(decide (e.1 ∈ delKeys))

/-- Modelled from the spec: `persistence.h` (the `STORE_EVERY_N_BLOCK`
constants and `DONT_STORE_MAINNET_STATE_UNTIL`), `gArgs` and
`IsInitialBlockDownload` are not among the sources.  The configuration
surface is a minimum height below which no checkpoint is written and a
checkpoint interval that is smaller during initial block download than
in steady state. -/
structure PersistenceConfig where
  nMinHeight : Int
  storeEveryIDB : Int
  storeEvery : Int
  idb_pos : 0 < storeEveryIDB
  steady_pos : 0 < storeEvery
  idb_lt : storeEveryIDB < storeEvery

/-- `IsPersistenceEnabled`: the height must exceed the configured
minimum and be an exact multiple of the interval selected by the
initial-block-download flag (C++ `%` on `int` is truncating division
remainder, `Int.tmod`). -/
def IsPersistenceEnabled (cfg : PersistenceConfig) (isIBD : Bool) (blockHeight : Int) : Bool :=
  let nStoreEveryBlock := if isIBD then cfg.storeEveryIDB else cfg.storeEvery
  decide (cfg.nMinHeight < blockHeight) && (Int.tmod blockHeight nStoreEveryBlock == 0)

/-- Test `line[0] == c`: false on the empty string (where the C++
`operator[]` at index 0 yields the null character). -/
def firstCharIs (s : String) (c : Char) : Bool :=
  match s.data with
  | [] => false
  | d :: _ => d == c

/-- ASCII lowercasing of one character, as `boost::iequals` does per
character on the hex digest strings. -/
def toLowerCh (c : Char) : Char :=
  if 'A' ≤ c ∧ c ≤ 'Z' then Char.ofNat (c.toNat + 32) else c

/-- Removal of carriage returns, `line.erase(remove(...,'\r'),...)`. -/
def stripCR (s : String) : String := String.mk (s.data.filter fun c => c != '\r')

/-- The line loop of `RestoreInMemoryState`: empty lines and lines
starting with the comment character are skipped before carriage-return
stripping; a line starting with the sentinel character records the
stored digest and is neither hashed nor parsed; any other line is first
appended to the hashed data (when verification is on) and then parsed,
a negative parser result stopping the loop with result -1.  Returns the
result, the hashed lines and the last recorded stored digest. -/
def restoreLoop (parse : String → Int) (verifyHash : Bool) :
    List String → List String → String → Int × List String × String
  | [], hashed, fileHash => (0, hashed, fileHash)
  | line :: rest, hashed, fileHash =>
    if line.isEmpty || firstCharIs line '#' then
      restoreLoop parse verifyHash rest hashed fileHash
    else
      let l := stripCR line
      if firstCharIs l '!' then restoreLoop parse verifyHash rest hashed (l.drop 1)
      else
        let hashed2 := if verifyHash then hashed ++ [l] else hashed
        if parse l < 0 then (-1, hashed2, fileHash)
        else restoreLoop parse verifyHash rest hashed2 fileHash

/-- `boost::iequals` on hex digest strings. -/
def ieqHex (a b : String) : Bool := a.data.map toLowerCh == b.data.map toLowerCh

/-- `RestoreInMemoryState` for one table.  Modelled from the spec where
the sources stop: the file is an optional list of lines (`none` is a
failed open) and the double-SHA256 digest over the hashed lines' bytes
is an uninterpreted function `hashFn`.  A missing file yields -1; after
the line loop, when verification is on and parsing succeeded, a
recomputed digest differing from the stored one turns the result into
-1. -/
def RestoreInMemoryState (hashFn : List String → String) (file : Option (List String))
    (parse : String → Int) (verifyHash : Bool) : Int :=
  match file with
  | none => -1
  | some lines =>
    let r := restoreLoop parse verifyHash lines [] ""
    if verifyHash && r.1 == 0 && !ieqHex (hashFn r.2.1) r.2.2 then -1 else r.1

/-- The per-filetype loop of `LoadMostRelevantInMemoryState`: restore
each table with hash verification, aborting with -1 as soon as one
restore reports a negative result; return the watermark height when all
six succeed. -/
def restoreAllLoop (hashFn : List String → String) (files : Nat → Option (List String))
    (parsers : Nat → String → Int) : List Nat → Int → Int
  | [], block => block
  | i :: rest, block =>
    if RestoreInMemoryState hashFn (files i) (parsers i) true < 0 then -1
    else restoreAllLoop hashFn files parsers rest block

/-- `LoadMostRelevantInMemoryState`: `none` for a missing SP-database
watermark yields the reparse sentinel -1; otherwise the six state files
named by the watermark hash (here: indexed by filetype) are restored in
order.  `watermark` is the stored (block hash, height) pair. -/
def LoadMostRelevantInMemoryState (hashFn : List String → String)
    (watermark : Option (Nat × Int)) (files : Nat → Option (List String))
    (parsers : Nat → String → Int) : Int :=
  match watermark with
  | none => -1
  | some w => restoreAllLoop hashFn files parsers [0, 1, 2, 3, 4, 5] w.2

/-- An entry of the persistence directory.  Modelled from the spec:
state files follow the canonical naming `<table>-<blockHashHex>.dat`
produced by `write_state_file`, so a state file is identified by its
filetype index and embedded block hash; other regular files do not parse
as state files, and non-regular entries are skipped. -/
inductive DirEntry
  | stateFile (ftype : Fin 6) (hash : Nat)
  | otherFile (name : String)
  | nonRegular (name : String)
deriving DecidableEq

/-- First loop of `prune_state_files`: the set of block hashes embedded
in the state files present in the directory. -/
def statefulBlockHashes (dir : List DirEntry) : List Nat :=
  (dir.filterMap fun e =>
    match e with
    | .stateFile _ h => some h
    | _ => none).dedup

/-- `prune_state_files`: for every block hash found in the directory
that differs from the hash of the given top block, all six table files
of that hash are removed; files of the top block's hash and entries that
are not state files are untouched. -/
def prune_state_files (topHash : Nat) (dir : List DirEntry) : List DirEntry :=
  let hashes := statefulBlockHashes dir
  dir.filter fun e =>
    match e with
    | .stateFile _ h => !(decide (h ∈ hashes) && h != topHash)
    | _ => true

/-- One property position of a `CMPTally` entry: the four money types
serialized by `write_msc_balances` (`BALANCE`, `SELLOFFER_RESERVE`,
`ACCEPT_RESERVE`, `METADEX_RESERVE`). -/
structure PropBal where
  propertyId : Nat
  balance : Int
  sellReserved : Int
  acceptReserved : Int
  metadexReserved : Int
deriving DecidableEq

/-- The skip test of `write_msc_balances`: all four amounts zero. -/
def PropBal.isZero (p : PropBal) : Bool :=
  p.balance == 0 && p.sellReserved == 0 && p.acceptReserved == 0 && p.metadexReserved == 0

/-- `write_msc_balances`, at the granularity of one address per line.
The in-memory tally registry (`mp_tally_map`, whose class lives outside
the sources) is passed as an association of addresses to property
entries in tally iteration order.  A property entry whose four amounts
are all zero is skipped; an address whose entries were all skipped
produces no line at all. -/
def write_msc_balances (tally : List (String × List PropBal)) : List (String × List PropBal) :=
  tally.filterMap fun a =>
    let kept := a.2.filter fun p => !p.isZero
    if kept.isEmpty then none else some (a.1, kept)

/-- Rendering of one property entry within a balances line,
`propertyId:balance,sellReserved,acceptReserved,metadexReserved;`. -/
def renderPropBal (p : PropBal) : String :=
  toString p.propertyId ++ ":" ++ toString p.balance ++ "," ++ toString p.sellReserved ++
    "," ++ toString p.acceptReserved ++ "," ++ toString p.metadexReserved ++ ";"

/-- The data lines written by `write_msc_balances`. -/
def write_msc_balances_lines (tally : List (String × List PropBal)) : List String :=
  (write_msc_balances tally).map fun a => a.1 ++ "=" ++ String.join (a.2.map renderPropBal)

/-- Helper for `splitCompress`: drop the empty tokens produced by
adjacent delimiters, keeping the final token even when empty. -/
def compressMid : List String → List String
  | [] => []
  | [t] => [t]
  | t :: rest => if t.isEmpty then compressMid rest else t :: compressMid rest

/-- `boost::split` with `token_compress_on`: split on any delimiter
character, merging adjacent delimiters into one separator (a leading or
trailing delimiter still yields an empty first or last token). -/
def splitCompress (isDelim : Char → Bool) (s : String) : List String :=
  match (s.data.splitOnP isDelim).map (fun l => String.mk l) with
  | [] => [""]
  | [t] => [t]
  | t :: rest => t :: compressMid rest

/-- Value of a decimal digit character. -/
def digitVal (c : Char) : Option Nat :=
  if '0' ≤ c ∧ c ≤ '9' then some (c.toNat - '0'.toNat) else none

/-- Accumulating decimal parse; fails on any non-digit character. -/
def parseDigitsAux : List Char → Nat → Option Nat
  | [], acc => some acc
  | c :: cs, acc =>
    match digitVal c with
    | some d => parseDigitsAux cs (acc * 10 + d)
    | none => none

/-- Decimal natural number parse (at least one digit required). -/
def parseNat (s : String) : Option Nat :=
  match s.data with
  | [] => none
  | cs => parseDigitsAux cs 0

/-- Decimal integer parse with an optional leading minus sign. -/
def parseInt (s : String) : Option Int :=
  match s.data with
  | [] => none
  | '-' :: cs =>
    match cs with
    | [] => none
    | _ =>
      match parseDigitsAux cs 0 with
      | some n => some (-(n : Int))
      | none => none
  | cs =>
    match parseDigitsAux cs 0 with
    | some n => some (n : Int)
    | none => none

/-- `boost::lexical_cast<uint32_t>`: parse a decimal natural that fits
in 32 bits; anything else fails (the source surfaces the failure as an
exception, which likewise prevents any update from the line). -/
def castUInt32 (s : String) : Option Nat :=
  match parseNat s with
  | some n => if n < 4294967296 then some n else none
  | none => none

/-- `boost::lexical_cast<int64_t>` under the same convention. -/
def castInt64 (s : String) : Option Int :=
  match parseInt s with
  | some n =>
    if -9223372036854775808 ≤ n ∧ n < 9223372036854775808 then some n else none
  | none => none

/-- One money-type position of the tally as named in the source. -/
inductive TallyType
  | BALANCE
  | SELLOFFER_RESERVE
  | ACCEPT_RESERVE
  | METADEX_RESERVE
deriving DecidableEq

/-- One call `update_tally_map(address, propertyId, amount, type)` made
while restoring a balances line. -/
structure TallyUpdate where
  address : String
  propertyId : Nat
  amount : Int
  ttype : TallyType
deriving DecidableEq

/-- Parsing of one `propertyid:balance,sell,accept,metadex` tuple of a
balances line: the tuple must split into exactly two parts around the
colon and the amounts into exactly four parts around commas; each of the
four amounts is applied to the tally only when non-zero. -/
def parsePropertyTuple (strAddress : String) (s : String) : Option (List TallyUpdate) :=
  let curProperty := splitCompress (fun c => c == ':') s
  if curProperty.length = 2 then
    let curBalance := splitCompress (fun c => c == ',') (curProperty.getD 1 "")
    if curBalance.length = 4 then
      match castUInt32 (curProperty.getD 0 ""), castInt64 (curBalance.getD 0 ""),
          castInt64 (curBalance.getD 1 ""), castInt64 (curBalance.getD 2 ""),
          castInt64 (curBalance.getD 3 "") with
      | some pid, some bal, some sell, some acc, some meta =>
        some ((if bal ≠ 0 then [⟨strAddress, pid, bal, .BALANCE⟩] else []) ++
          (if sell ≠ 0 then [⟨strAddress, pid, sell, .SELLOFFER_RESERVE⟩] else []) ++
          (if acc ≠ 0 then [⟨strAddress, pid, acc, .ACCEPT_RESERVE⟩] else []) ++
          (if meta ≠ 0 then [⟨strAddress, pid, meta, .METADEX_RESERVE⟩] else []))
      | _, _, _, _, _ => none
    else none
  else none

/-- The property loop of `input_msc_balances_string`: empty tuples
(from the trailing semicolon) are skipped; a malformed tuple fails the
whole line. -/
def processProperties (strAddress : String) : List String → Option (List TallyUpdate)
  | [] => some []
  | p :: rest =>
    if p.isEmpty then processProperties strAddress rest
    else
      match parsePropertyTuple strAddress p with
      | none => none
      | some us =>
        match processProperties strAddress rest with
        | none => none
        | some vs => some (us ++ vs)

/-- `input_msc_balances_string`: split the line around the equals sign
into address and property data (exactly two parts), then parse each
semicolon-separated property tuple, collecting the tally updates the
source applies.  `none` is the failed (-1 or throwing) outcome, under
which the restore of the table aborts. -/
def input_msc_balances_string (s : String) : Option (List TallyUpdate) :=
  let addrData := splitCompress (fun c => c == '=') s
  if addrData.length = 2 then
    processProperties (addrData.headD "") (splitCompress (fun c => c == ';') (addrData.getD 1 ""))
  else none

/-- Sample sorted store used by concrete witnesses: transactions indexed
at heights 100, 103 and 106, transaction 7 carrying two payment
sub-records, transaction 9 a primary record. -/
def sampleDb : DB :=
  [(.blockTx 106 30, .empty), (.blockTx 103 20, .empty), (.blockTx 100 10, .empty),
   (.payment 7 2 100 1, .paymentV 0 "b" "s" 1 5), (.payment 7 1 100 1, .paymentV 0 "b" "s" 1 4),
   (.sendAll 7 3, .sendAllV 1 2), (.txRec 9 100 1 0, .num 11)]

/-- Sample store with a cancel transaction 5 that cancelled the two
targets 2 and 3, and a send-all transaction 7. -/
def sampleCancelDb : DB :=
  [(.cancel 5 2 10 1, .cancelV 1 100), (.cancel 5 1 10 1, .cancelV 1 50),
   (.txToCancel 2, .txidV 5), (.txToCancel 3, .txidV 5),
   (.sendAll 7 1, .sendAllV 1 2)]

/-- Sample store where transaction 1 owns both a primary record and a
payment sub-record. -/
def sampleDualDb : DB :=
  [(.blockTx 10 1, .empty), (.payment 1 1 10 1, .paymentV 0 "b" "s" 1 5),
   (.txRec 1 10 1 0, .num 7)]

/-- Whether the store holds any row of schema tag `t` whose leading
(txid) field is `x`. -/
def hasSchemaRow (db : DB) (t x : Nat) : Bool :=
  db.any fun e => e.1.tag == t && e.1.fields.headD 0 == x

/-- The highest payment sub-record number stored for a txid (0 when
none exists). -/
def maxPaymentSeq (db : DB) (x : Nat) : Nat :=
  (db.filterMap fun e =>
    match e.1 with
    | .payment t p _ _ => if t = x then some p else none
    | _ => none).foldr max 0

/-- The highest send-all sub-record number stored for a txid (0 when
none exists). -/
def maxSendAllSeq (db : DB) (x : Nat) : Nat :=
  (db.filterMap fun e =>
    match e.1 with
    | .sendAll t n => if t = x then some n else none
    | _ => none).foldr max 0

/-- The listed txids whose cancel sub-records get staged by
`deleteTransactions`: those with no primary and no payment rows but
with cancel rows. -/
def cancelSet (db : DB) (txs : List Nat) : List Nat :=
  txs.filter fun x =>
    !hasSchemaRow db tagTxRec x && !hasSchemaRow db tagPayment x && hasSchemaRow db tagCancel x

/-- Declarative description of the keys `deleteTransactions db txs blk`
deletes: the block-index rows at height at least `blk`; for a listed
txid its primary rows, or else its payment rows, or else its cancel
rows, and always its send-all rows and the reverse cancel-link keyed by
it; and, for each listed txid whose cancel rows are staged, the reverse
cancel-link with the smallest target among those pointing at it. -/
def delSpec (db : DB) (txs : List Nat) (blk : Nat) (k : DBKey) : Prop :=
  (∃ b t, k = .blockTx b t ∧ blk ≤ b) ∨
  (∃ x, x ∈ txs ∧ k.fields.headD 0 = x ∧
    (k.tag = tagTxRec ∨
     (k.tag = tagPayment ∧ hasSchemaRow db tagTxRec x = false) ∨
     (k.tag = tagCancel ∧ hasSchemaRow db tagTxRec x = false ∧
       hasSchemaRow db tagPayment x = false) ∨
     k.tag = tagSendAll ∨ k.tag = tagTxToCancel)) ∨
  (∃ T X, k = .txToCancel T ∧ (k, .txidV X) ∈ db ∧ X ∈ cancelSet db txs ∧
    ∀ T2, (DBKey.txToCancel T2, DBValue.txidV X) ∈ db → T ≤ T2)

theorem lexLt_trans : ∀ {a b c : List Nat},
    lexLt a b = true → lexLt b c = true → lexLt a c = true
  | [], _ :: _, _ :: _, _, _ => rfl
  | _ :: _, _ :: _, _ :: _, hab, hbc => by
    simp only [lexLt, Bool.or_eq_true, Bool.and_eq_true, decide_eq_true_eq,
      beq_iff_eq] at hab hbc ⊢
    rcases hab with h1 | ⟨h1, h1r⟩ <;> rcases hbc with h2 | ⟨h2, h2r⟩
    · exact Or.inl (h1.trans h2)
    · exact Or.inl (h2 ▸ h1)
    · exact Or.inl (h1 ▸ h2)
    · exact Or.inr ⟨h1.trans h2, lexLt_trans h1r h2r⟩

theorem lexLt_irrefl : ∀ {a : List Nat}, lexLt a a = false
  | [] => rfl
  | _ :: _ => by
    simp only [lexLt, Bool.or_eq_false_iff, Bool.and_eq_false_iff, decide_eq_false_iff_not]
    exact ⟨Nat.lt_irrefl _, Or.inr lexLt_irrefl⟩

theorem lexLt_headD_le {a b : List Nat} (h : lexLt a b = true) :
    a.headD 0 ≤ b.headD 0 := by
  match a, b with
  | [], _ => exact Nat.zero_le _
  | _ :: _, [] => exact absurd h (by simp [lexLt])
  | x :: _, y :: _ =>
    simp only [lexLt, Bool.or_eq_true, Bool.and_eq_true, decide_eq_true_eq, beq_iff_eq] at h
    rcases h with h | ⟨h, _⟩
    · exact Nat.le_of_lt h
    · exact Nat.le_of_eq h

theorem keyLtB_trans {a b c : DBKey} (hab : keyLtB a b = true) (hbc : keyLtB b c = true) :
    keyLtB a c = true := by
  simp only [keyLtB, Bool.or_eq_true, Bool.and_eq_true, decide_eq_true_eq,
    beq_iff_eq] at hab hbc ⊢
  rcases hab with h1 | ⟨h1, h1r⟩ <;> rcases hbc with h2 | ⟨h2, h2r⟩
  · exact Or.inl (h1.trans h2)
  · exact Or.inl (h2 ▸ h1)
  · exact Or.inl (h1 ▸ h2)
  · exact Or.inr ⟨h1.trans h2, lexLt_trans h1r h2r⟩

theorem keyLtB_irrefl {a : DBKey} : keyLtB a a = false := by
  simp only [keyLtB, Bool.or_eq_false_iff, Bool.and_eq_false_iff, decide_eq_false_iff_not]
  exact ⟨Nat.lt_irrefl _, Or.inr lexLt_irrefl⟩

theorem keyLtB_tag_le {a b : DBKey} (h : keyLtB a b = true) : a.tag ≤ b.tag := by
  simp only [keyLtB, Bool.or_eq_true, Bool.and_eq_true, decide_eq_true_eq, beq_iff_eq] at h
  rcases h with h | ⟨h, _⟩
  · exact Nat.le_of_lt h
  · exact Nat.le_of_eq h

/-- Along the byte order, the (tag, leading field) pair is weakly
monotone. -/
theorem keyLtB_tagHead {a b : DBKey} (h : keyLtB a b = true) :
    a.tag < b.tag ∨ (a.tag = b.tag ∧ a.fields.headD 0 ≤ b.fields.headD 0) := by
  simp only [keyLtB, Bool.or_eq_true, Bool.and_eq_true, decide_eq_true_eq, beq_iff_eq] at h
  rcases h with h | ⟨h, hr⟩
  · exact Or.inl h
  · exact Or.inr ⟨h, lexLt_headD_le hr⟩

/-- On a pairwise-sorted list, a predicate that can only turn from
false to true backwards makes `dropWhile` agree with filtering. -/
theorem dropWhile_eq_filter_not {α : Type} (p : α → Bool) (r : α → α → Prop) :
    ∀ (l : List α), l.Pairwise r →
      (∀ a ∈ l, ∀ b ∈ l, r a b → p b = true → p a = true) →
      l.dropWhile p = l.filter (fun a => !(p a))
  | [], _, _ => rfl
  | x :: xs, hl, h => by
    rw [List.pairwise_cons] at hl
    by_cases hp : p x = true
    · rw [List.dropWhile_cons_of_pos hp, List.filter_cons_of_neg (by simp [hp])]
      exact dropWhile_eq_filter_not p r xs hl.2
        (fun a ha b hb hr => h a (List.mem_cons_of_mem _ ha) b (List.mem_cons_of_mem _ hb) hr)
    · rw [List.dropWhile_cons_of_neg hp, List.filter_cons_of_pos (by simp [hp])]
      have : List.filter (fun a => !(p a)) xs = xs := by
        rw [List.filter_eq_self]
        intro b hb
        simp only [Bool.not_eq_true']
        by_contra hpb
        exact hp (h x (List.mem_cons_self _ _) b (List.mem_cons_of_mem _ hb) (hl.1 b hb)
          (by revert hpb; cases p b <;> simp))
      rw [this]

/-- On a pairwise-sorted list, a predicate that can only turn from true
to false forwards makes `takeWhile` agree with filtering. -/
theorem takeWhile_eq_filter_self {α : Type} (q : α → Bool) (r : α → α → Prop) :
    ∀ (l : List α), l.Pairwise r →
      (∀ a ∈ l, ∀ b ∈ l, r a b → q a = false → q b = false) →
      l.takeWhile q = l.filter q
  | [], _, _ => rfl
  | x :: xs, hl, h => by
    rw [List.pairwise_cons] at hl
    by_cases hq : q x = true
    · rw [List.takeWhile_cons_of_pos hq, List.filter_cons_of_pos hq]
      rw [takeWhile_eq_filter_self q r xs hl.2
        (fun a ha b hb hr => h a (List.mem_cons_of_mem _ ha) b (List.mem_cons_of_mem _ hb) hr)]
    · have hq' : q x = false := by revert hq; cases q x <;> simp
      rw [List.takeWhile_cons_of_neg (by simp [hq']), List.filter_cons_of_neg (by simp [hq'])]
      refine (List.filter_eq_nil_iff.mpr ?_).symm
      intro b hb
      simp [h x (List.mem_cons_self _ _) b (List.mem_cons_of_mem _ hb) (hl.1 b hb) hq']


theorem scanSub_sublist (db : DB) (t x : Nat) : List.Sublist (scanSub db t x) db :=
  (List.takeWhile_sublist _).trans (List.dropWhile_sublist _)

theorem seekTag_sublist (db : DB) (k : DBKey) : List.Sublist (seekTag db k) db :=
  (List.takeWhile_sublist _).trans (List.dropWhile_sublist _)

theorem keyLtB_eq_false_tag_le {a b : DBKey} (h : keyLtB a b = false) : b.tag ≤ a.tag := by
  simp only [keyLtB, Bool.or_eq_false_iff, decide_eq_false_iff_not] at h
  exact Nat.le_of_not_lt h.1

/-- On a sorted store, the partial-key scan is exactly the rows of the
schema with the given leading field. -/
theorem scanSub_eq_filter (db : DB) (t x : Nat) (hs : DBSorted db) :
    scanSub db t x = db.filter fun e => e.1.tag == t && e.1.fields.headD 0 == x := by
  unfold scanSub
  rw [dropWhile_eq_filter_not _ (fun a b => keyLtB a.1 b.1 = true) db hs ?hback]
  case hback =>
    intro a _ b _ hr hb
    have hth := keyLtB_tagHead hr
    simp only [Bool.or_eq_true, Bool.and_eq_true, decide_eq_true_eq, beq_iff_eq] at hb ⊢
    omega
  rw [takeWhile_eq_filter_self _ (fun a b => keyLtB a.1 b.1 = true) _
    (hs.sublist (List.filter_sublist _)) ?hfwd]
  case hfwd =>
    intro a ha b _ hr hqa
    rw [List.mem_filter] at ha
    have hpa := ha.2
    have hth := keyLtB_tagHead hr
    simp only [Bool.not_eq_true', Bool.or_eq_false_iff, Bool.and_eq_false_iff,
      decide_eq_false_iff_not, beq_eq_false_iff_ne, ne_eq] at hpa
    simp only [Bool.and_eq_false_iff, beq_eq_false_iff_ne, ne_eq] at hqa ⊢
    by_contra hc
    push_neg at hc
    rcases hpa with ⟨hpa1, hpa2⟩
    rcases hth with h | ⟨h, h2⟩ <;> rcases hqa with h3 | h3 <;>
      rcases hpa2 with h4 | h4 <;> omega
  rw [List.filter_filter]
  refine List.filter_congr ?_
  intro e _
  cases htag : (e.1.tag == t) with
  | false => simp [htag]
  | true =>
    cases hhead : (e.1.fields.headD 0 == x) with
    | false => simp [htag, hhead]
    | true =>
      have h1 : e.1.tag = t := beq_iff_eq.mp htag
      have h2 : e.1.fields.headD 0 = x := beq_iff_eq.mp hhead
      simp only [h1, h2]
      simp

/-- On a sorted store, iterating from a full seek key within its schema
is exactly filtering the schema's rows at or above the seek key. -/
theorem seekTag_eq_filter (db : DB) (k : DBKey) (hs : DBSorted db) :
    seekTag db k = db.filter fun e => e.1.tag == k.tag && !keyLtB e.1 k := by
  unfold seekTag
  rw [dropWhile_eq_filter_not _ (fun a b => keyLtB a.1 b.1 = true) db hs
    (fun a _ b _ hr hb => keyLtB_trans hr hb)]
  rw [takeWhile_eq_filter_self _ (fun a b => keyLtB a.1 b.1 = true) _
    (hs.sublist (List.filter_sublist _)) ?hfwd]
  case hfwd =>
    intro a ha b _ hr hqa
    rw [List.mem_filter] at ha
    have hpa : keyLtB a.1 k = false := by
      have := ha.2
      revert this
      cases keyLtB a.1 k <;> simp
    have h1 := keyLtB_eq_false_tag_le hpa
    have h2 := keyLtB_tag_le hr
    simp only [beq_eq_false_iff_ne, ne_eq] at hqa ⊢
    omega
  rw [List.filter_filter]

theorem mem_scanSub {db : DB} {t x : Nat} (hs : DBSorted db) {e : DBKey × DBValue} :
    e ∈ scanSub db t x ↔ e ∈ db ∧ e.1.tag = t ∧ e.1.fields.headD 0 = x := by
  rw [scanSub_eq_filter db t x hs, List.mem_filter]
  simp [Bool.and_eq_true]

theorem scanSub_nil_iff {db : DB} {t x : Nat} (hs : DBSorted db) :
    scanSub db t x = [] ↔ hasSchemaRow db t x = false := by
  rw [scanSub_eq_filter db t x hs]
  unfold hasSchemaRow
  constructor
  · intro h
    rw [List.filter_eq_nil_iff] at h
    rw [Bool.eq_false_iff]
    intro hc
    rw [List.any_eq_true] at hc
    obtain ⟨e, he, hp⟩ := hc
    exact h e he hp
  · intro h
    rw [List.filter_eq_nil_iff]
    intro e he hp
    rw [Bool.eq_false_iff] at h
    exact h (List.any_eq_true.mpr ⟨e, he, hp⟩)

theorem DBWF_mem {db : DB} (h : DBWF db = true) {e : DBKey × DBValue} (he : e ∈ db) :
    rowWF e = true := by
  unfold DBWF at h
  exact List.all_eq_true.mp h e he

theorem tag_eq_payment {k : DBKey} (h : k.tag = tagPayment) :
    ∃ t p b v, k = DBKey.payment t p b v := by
  cases k <;> first
    | exact ⟨_, _, _, _, rfl⟩
    | exact absurd h (by simp [DBKey.tag, tagPayment])

theorem tag_eq_sendAll {k : DBKey} (h : k.tag = tagSendAll) :
    ∃ t n, k = DBKey.sendAll t n := by
  cases k <;> first
    | exact ⟨_, _, rfl⟩
    | exact absurd h (by simp [DBKey.tag, tagSendAll])

theorem tag_eq_cancel {k : DBKey} (h : k.tag = tagCancel) :
    ∃ t a b v, k = DBKey.cancel t a b v := by
  cases k <;> first
    | exact ⟨_, _, _, _, rfl⟩
    | exact absurd h (by simp [DBKey.tag, tagCancel])

theorem tag_eq_txRec {k : DBKey} (h : k.tag = tagTxRec) :
    ∃ t b v ty, k = DBKey.txRec t b v ty := by
  cases k <;> first
    | exact ⟨_, _, _, _, rfl⟩
    | exact absurd h (by simp [DBKey.tag, tagTxRec])

theorem tag_eq_txToCancel {k : DBKey} (h : k.tag = tagTxToCancel) :
    ∃ t, k = DBKey.txToCancel t := by
  cases k <;> first
    | exact ⟨_, rfl⟩
    | exact absurd h (by simp [DBKey.tag, tagTxToCancel])

theorem tag_eq_blockTx {k : DBKey} (h : k.tag = tagBlockTx) :
    ∃ b t, k = DBKey.blockTx b t := by
  cases k <;> first
    | exact ⟨_, _, rfl⟩
    | exact absurd h (by simp [DBKey.tag, tagBlockTx])

theorem foldr_max_le {l : List Nat} {m : Nat} (h : ∀ a ∈ l, a ≤ m) :
    l.foldr max 0 ≤ m := by
  induction l with
  | nil => exact Nat.zero_le m
  | cons a l ih =>
    simp only [List.foldr_cons]
    exact max_le (h a (List.mem_cons_self _ _))
      (ih fun b hb => h b (List.mem_cons_of_mem _ hb))

theorem le_foldr_max {l : List Nat} {a : Nat} (ha : a ∈ l) : a ≤ l.foldr max 0 := by
  induction l with
  | nil => cases ha
  | cons b l ih =>
    simp only [List.foldr_cons]
    rcases List.mem_cons.mp ha with h | h
    · exact h ▸ le_max_left _ _
    · exact le_trans (ih h) (le_max_right _ _)

theorem mem_paymentSeq_src {db : DB} {x a : Nat} :
    a ∈ (db.filterMap fun e =>
      match e.1 with
      | DBKey.payment t p _ _ => if t = x then some p else none
      | _ => none) ↔ ∃ b v w, (DBKey.payment x a b v, w) ∈ db := by
  rw [List.mem_filterMap]
  constructor
  · rintro ⟨⟨k, w⟩, hrow, hval⟩
    cases k
    case payment t1 p1 b1 v1 =>
      have hval' : (if t1 = x then some p1 else none) = some a := hval
      by_cases ht : t1 = x
      · rw [if_pos ht] at hval'
        have hpa := Option.some.inj hval'
        subst ht
        subst hpa
        exact ⟨b1, v1, w, hrow⟩
      · rw [if_neg ht] at hval'
        cases hval'
    all_goals exact absurd hval (by simp)
  · rintro ⟨b, v, w, h⟩
    exact ⟨(DBKey.payment x a b v, w), h, by simp⟩

theorem mem_sendAllSeq_src {db : DB} {x a : Nat} :
    a ∈ (db.filterMap fun e =>
      match e.1 with
      | DBKey.sendAll t n => if t = x then some n else none
      | _ => none) ↔ ∃ w, (DBKey.sendAll x a, w) ∈ db := by
  rw [List.mem_filterMap]
  constructor
  · rintro ⟨⟨k, w⟩, hrow, hval⟩
    cases k
    case sendAll t1 n1 =>
      have hval' : (if t1 = x then some n1 else none) = some a := hval
      by_cases ht : t1 = x
      · rw [if_pos ht] at hval'
        have hpa := Option.some.inj hval'
        subst ht
        subst hpa
        exact ⟨w, hrow⟩
      · rw [if_neg ht] at hval'
        cases hval'
    all_goals exact absurd hval (by simp)
  · rintro ⟨w, h⟩
    exact ⟨(DBKey.sendAll x a, w), h, by simp⟩

/-- The first row of a non-empty payment prefix scan on a sorted
well-formed store: it is a payment row of the store for that txid, and
its sub-record number is the highest one stored. -/
theorem scanSub_payment_head {db : DB} {x : Nat} (hs : DBSorted db) (hwf : DBWF db = true)
    {e : DBKey × DBValue} (he : (scanSub db tagPayment x).head? = some e) :
    (∃ b v, e.1 = DBKey.payment x e.1.paymentsOf b v) ∧ e ∈ db ∧
      e.1.paymentsOf = maxPaymentSeq db x := by
  have hmem : e ∈ scanSub db tagPayment x := List.mem_of_mem_head? he
  have hprops := (mem_scanSub hs).mp hmem
  obtain ⟨t0, p0, b0, v0, hk⟩ := tag_eq_payment hprops.2.1
  have hx : t0 = x := by
    have := hprops.2.2
    rw [hk] at this
    simpa [DBKey.fields] using this
  subst hx
  refine ⟨⟨b0, v0, by rw [hk]; rfl⟩, hprops.1, ?_⟩
  have hmax : ∀ p b v w, (DBKey.payment t0 p b v, w) ∈ db → p ≤ e.1.paymentsOf := by
    intro p b v w hrow
    have hrow' : (DBKey.payment t0 p b v, w) ∈ scanSub db tagPayment t0 := by
      rw [mem_scanSub hs]
      exact ⟨hrow, rfl, rfl⟩
    obtain ⟨l, hl⟩ := List.head?_eq_some_iff.mp he
    rw [hl] at hrow'
    rcases List.mem_cons.mp hrow' with hsame | hrest
    · rw [← hsame]
      simp [DBKey.paymentsOf]
    · have hsorted : List.Pairwise (fun a b => keyLtB a.1 b.1 = true) (e :: l) := by
        rw [← hl]
        exact hs.sublist (scanSub_sublist db tagPayment t0)
      have hlt := (List.pairwise_cons.mp hsorted).1 _ hrest
      have hpe : p0 < 4294967296 := by
        have h1 := DBWF_mem hwf hprops.1
        have h2 : rowWF (DBKey.payment t0 p0 b0 v0, e.2) = true := by
          rw [← hk]
          exact h1
        simpa [rowWF] using h2
      have hp : p < 4294967296 := by
        have := DBWF_mem hwf hrow
        simpa [rowWF] using this
      rw [hk] at hlt
      simp only [keyLtB, DBKey.tag, DBKey.fields, lexLt, Bool.or_eq_true, Bool.and_eq_true,
        decide_eq_true_eq, beq_iff_eq, inv32, UINT32_MAX] at hlt
      rw [hk]
      simp only [DBKey.paymentsOf]
      omega
  apply Nat.le_antisymm
  · rw [hk]
    simp only [DBKey.paymentsOf]
    unfold maxPaymentSeq
    apply le_foldr_max
    refine mem_paymentSeq_src.mpr ⟨b0, v0, e.2, ?_⟩
    rw [← hk]
    exact hprops.1
  · unfold maxPaymentSeq
    apply foldr_max_le
    intro a ha
    obtain ⟨b1, v1, w1, hrow⟩ := mem_paymentSeq_src.mp ha
    exact hmax a b1 v1 w1 hrow

/-- The first row of a non-empty send-all prefix scan on a sorted
well-formed store carries the highest stored sub-record number. -/
theorem scanSub_sendAll_head {db : DB} {x : Nat} (hs : DBSorted db) (hwf : DBWF db = true)
    {e : DBKey × DBValue} (he : (scanSub db tagSendAll x).head? = some e) :
    e.1 = DBKey.sendAll x e.1.numOf ∧ e ∈ db ∧
      e.1.numOf = maxSendAllSeq db x := by
  have hmem : e ∈ scanSub db tagSendAll x := List.mem_of_mem_head? he
  have hprops := (mem_scanSub hs).mp hmem
  obtain ⟨t0, n0, hk⟩ := tag_eq_sendAll hprops.2.1
  have hx : t0 = x := by
    have := hprops.2.2
    rw [hk] at this
    simpa [DBKey.fields] using this
  subst hx
  refine ⟨by rw [hk]; rfl, hprops.1, ?_⟩
  have hmax : ∀ n w, (DBKey.sendAll t0 n, w) ∈ db → n ≤ e.1.numOf := by
    intro n w hrow
    have hrow' : (DBKey.sendAll t0 n, w) ∈ scanSub db tagSendAll t0 := by
      rw [mem_scanSub hs]
      exact ⟨hrow, rfl, rfl⟩
    obtain ⟨l, hl⟩ := List.head?_eq_some_iff.mp he
    rw [hl] at hrow'
    rcases List.mem_cons.mp hrow' with hsame | hrest
    · rw [← hsame]
      simp [DBKey.numOf]
    · have hsorted : List.Pairwise (fun a b => keyLtB a.1 b.1 = true) (e :: l) := by
        rw [← hl]
        exact hs.sublist (scanSub_sublist db tagSendAll t0)
      have hlt := (List.pairwise_cons.mp hsorted).1 _ hrest
      have hpe : n0 < 4294967296 := by
        have h1 := DBWF_mem hwf hprops.1
        have h2 : rowWF (DBKey.sendAll t0 n0, e.2) = true := by
          rw [← hk]
          exact h1
        simpa [rowWF] using h2
      have hp : n < 4294967296 := by
        have := DBWF_mem hwf hrow
        simpa [rowWF] using this
      rw [hk] at hlt
      simp only [keyLtB, DBKey.tag, DBKey.fields, lexLt, Bool.or_eq_true, Bool.and_eq_true,
        decide_eq_true_eq, beq_iff_eq, inv32, UINT32_MAX] at hlt
      rw [hk]
      simp only [DBKey.numOf]
      omega
  apply Nat.le_antisymm
  · rw [hk]
    simp only [DBKey.numOf]
    unfold maxSendAllSeq
    apply le_foldr_max
    refine mem_sendAllSeq_src.mpr ⟨e.2, ?_⟩
    rw [← hk]
    exact hprops.1
  · unfold maxSendAllSeq
    apply foldr_max_le
    intro a ha
    obtain ⟨w1, hrow⟩ := mem_sendAllSeq_src.mp ha
    exact hmax a w1 hrow

theorem dbPut_mem_self (db : DB) (k : DBKey) (v : DBValue) : (k, v) ∈ dbPut db k v := by
  induction db with
  | nil => simp [dbPut]
  | cons e rest ih =>
    simp only [dbPut]
    split
    · exact List.mem_cons_self _ _
    · split
      · exact List.mem_cons_self _ _
      · exact List.mem_cons_of_mem _ ih

theorem dbPut_mem_other (db : DB) (k : DBKey) (v : DBValue) {e : DBKey × DBValue}
    (he : e ∈ db) (hne : e.1 ≠ k) : e ∈ dbPut db k v := by
  induction db with
  | nil => cases he
  | cons f rest ih =>
    simp only [dbPut]
    split
    · exact List.mem_cons_of_mem _ he
    · split
      case isTrue h2 =>
        rcases List.mem_cons.mp he with rfl | hr
        · exact absurd h2.symm hne
        · exact List.mem_cons_of_mem _ hr
      case isFalse h2 =>
        rcases List.mem_cons.mp he with rfl | hr
        · exact List.mem_cons_self _ _
        · exact List.mem_cons_of_mem _ (ih hr)

theorem maxPaymentSeq_eq_zero {db : DB} {x : Nat} (h : hasSchemaRow db tagPayment x = false) :
    maxPaymentSeq db x = 0 := by
  unfold maxPaymentSeq
  have hnil : (db.filterMap fun e =>
      match e.1 with
      | DBKey.payment t p _ _ => if t = x then some p else none
      | _ => none) = [] := by
    rw [List.eq_nil_iff_forall_not_mem]
    intro a ha
    obtain ⟨b, v, w, hrow⟩ := mem_paymentSeq_src.mp ha
    rw [Bool.eq_false_iff] at h
    exact h (List.any_eq_true.mpr
      ⟨_, hrow, by simp [DBKey.tag, tagPayment, DBKey.fields]⟩)
  rw [hnil]
  rfl

theorem maxSendAllSeq_eq_zero {db : DB} {x : Nat} (h : hasSchemaRow db tagSendAll x = false) :
    maxSendAllSeq db x = 0 := by
  unfold maxSendAllSeq
  have hnil : (db.filterMap fun e =>
      match e.1 with
      | DBKey.sendAll t n => if t = x then some n else none
      | _ => none) = [] := by
    rw [List.eq_nil_iff_forall_not_mem]
    intro a ha
    obtain ⟨w, hrow⟩ := mem_sendAllSeq_src.mp ha
    rw [Bool.eq_false_iff] at h
    exact h (List.any_eq_true.mpr
      ⟨_, hrow, by simp [DBKey.tag, tagSendAll, DBKey.fields]⟩)
  rw [hnil]
  rfl

/-- C10: for every transaction id, `getNumberOfSubRecords` returns the
highest payment sub-record sequence number when at least one payment
sub-record exists for it, otherwise the highest send-all sub-record
sequence number when at least one exists, and 0 when neither exists —
payment sub-records shadow send-all sub-records in the count. -/
theorem getNumberOfSubRecords_spec (db : DB) (x : Nat) (hs : DBSorted db)
    (hwf : DBWF db = true) :
    (hasSchemaRow db tagPayment x = true →
      getNumberOfSubRecords db x = maxPaymentSeq db x) ∧
    (hasSchemaRow db tagPayment x = false → hasSchemaRow db tagSendAll x = true →
      getNumberOfSubRecords db x = maxSendAllSeq db x) ∧
    (hasSchemaRow db tagPayment x = false → hasSchemaRow db tagSendAll x = false →
      getNumberOfSubRecords db x = 0) := by
  refine ⟨?_, ?_, ?_⟩
  · intro hp
    cases hh : (scanSub db tagPayment x).head? with
    | none =>
      rw [List.head?_eq_none_iff] at hh
      rw [(scanSub_nil_iff hs).mp hh] at hp
      cases hp
    | some e =>
      have h := scanSub_payment_head hs hwf hh
      unfold getNumberOfSubRecords
      rw [hh]
      exact h.2.2
  · intro hp hsa
    have hnil : scanSub db tagPayment x = [] := (scanSub_nil_iff hs).mpr hp
    cases hh : (scanSub db tagSendAll x).head? with
    | none =>
      rw [List.head?_eq_none_iff] at hh
      rw [(scanSub_nil_iff hs).mp hh] at hsa
      cases hsa
    | some e =>
      have h := scanSub_sendAll_head hs hwf hh
      unfold getNumberOfSubRecords
      rw [hnil, List.head?_nil, hh]
      exact h.2.2
  · intro hp hsa
    unfold getNumberOfSubRecords
    rw [(scanSub_nil_iff hs).mpr hp, (scanSub_nil_iff hs).mpr hsa]
    rfl

theorem getNumberOfSubRecords_spec_witness :
    getNumberOfSubRecords sampleDb 7 = maxPaymentSeq sampleDb 7 ∧
    getNumberOfSubRecords sampleCancelDb 7 = maxSendAllSeq sampleCancelDb 7 ∧
    getNumberOfSubRecords sampleDb 11 = 0 :=
  ⟨(getNumberOfSubRecords_spec sampleDb 7 (by decide) (by decide)).1 (by decide),
   (getNumberOfSubRecords_spec sampleCancelDb 7 (by decide) (by decide)).2.1
     (by decide) (by decide),
   (getNumberOfSubRecords_spec sampleDb 11 (by decide) (by decide)).2.2
     (by decide) (by decide)⟩

/-- C4 (amended): `recordPaymentTX` assigns the new payment sub-record
the sequence number equal to the current maximum stored for that txid
plus one (one when no sub-record exists), determined by seeking the
payment sub-schema's key prefix, and writes the block-index row and the
sub-record; `recordSendAllSubRecord` also writes the block-index row
and the sub-record, but stores it under the caller-supplied sub-record
number and performs no prefix seek. -/
theorem record_sub_records_spec (db : DB) (x : Nat) (fv : Bool)
    (nb vout pid val : Nat) (buyer seller : String) (num pid2 : Nat) (val2 : Int)
    (hs : DBSorted db) (hwf : DBWF db = true)
    (hmax : maxPaymentSeq db x < UINT32_MAX) (hnb : nb < 4294967296)
    (hnum : num < 4294967296) :
    ((DBKey.payment x (maxPaymentSeq db x + 1) nb (if fv then 1 else 0),
        DBValue.paymentV vout buyer seller pid val) ∈
      recordPaymentTX db x fv nb vout pid val buyer seller ∧
      (DBKey.blockTx nb x, DBValue.empty) ∈
        recordPaymentTX db x fv nb vout pid val buyer seller) ∧
    ((DBKey.sendAll x num, DBValue.sendAllV pid2 val2) ∈
        recordSendAllSubRecord db x nb num pid2 val2 ∧
      (DBKey.blockTx nb x, DBValue.empty) ∈
        recordSendAllSubRecord db x nb num pid2 val2) := by
  have hnb' : nb % 4294967296 = nb := Nat.mod_eq_of_lt hnb
  constructor
  · cases hh : (scanSub db tagPayment x).head? with
    | none =>
      have h0 := maxPaymentSeq_eq_zero
        ((scanSub_nil_iff hs).mp (List.head?_eq_none_iff.mp hh))
      simp only [recordPaymentTX, hh, h0, hnb', Nat.zero_add]
      constructor
      · exact dbPut_mem_self _ _ _
      · exact dbPut_mem_other _ _ _ (dbPut_mem_self _ _ _) (by simp)
    | some e =>
      have h := scanSub_payment_head hs hwf hh
      simp only [recordPaymentTX, hh, h.2.2, hnb',
        Nat.mod_eq_of_lt (show maxPaymentSeq db x + 1 < 4294967296 by
          unfold UINT32_MAX at hmax; omega)]
      constructor
      · exact dbPut_mem_self _ _ _
      · exact dbPut_mem_other _ _ _ (dbPut_mem_self _ _ _) (by simp)
  · simp only [recordSendAllSubRecord, hnb', Nat.mod_eq_of_lt hnum]
    constructor
    · exact dbPut_mem_other _ _ _ (dbPut_mem_self _ _ _) (by simp)
    · exact dbPut_mem_self _ _ _

theorem record_sub_records_spec_witness :
    ((DBKey.payment 7 (maxPaymentSeq sampleDb 7 + 1) 200 1,
        DBValue.paymentV 0 "b2" "s2" 1 9) ∈
      recordPaymentTX sampleDb 7 true 200 0 1 9 "b2" "s2" ∧
      (DBKey.blockTx 200 7, DBValue.empty) ∈
        recordPaymentTX sampleDb 7 true 200 0 1 9 "b2" "s2") ∧
    ((DBKey.sendAll 7 4, DBValue.sendAllV 2 3) ∈
        recordSendAllSubRecord sampleDb 7 200 4 2 3 ∧
      (DBKey.blockTx 200 7, DBValue.empty) ∈
        recordSendAllSubRecord sampleDb 7 200 4 2 3) :=
  record_sub_records_spec sampleDb 7 true 200 0 1 9 "b2" "s2" 4 2 3
    (by decide) (by decide) (by decide) (by decide) (by decide)

/-- C4 counterexample: on an empty store the claim demands that
`recordSendAllSubRecord` assign sequence number `current max + 1 = 1`,
but the function stores the sub-record under the caller-supplied
number 5 and writes no row numbered 1. -/
theorem record_sendAll_counterexample :
    maxSendAllSeq ([] : DB) 7 + 1 = 1 ∧
    (DBKey.sendAll 7 5, DBValue.sendAllV 2 3) ∈ recordSendAllSubRecord [] 7 10 5 2 3 ∧
    (recordSendAllSubRecord [] 7 10 5 2 3).all
      (fun e => decide (e.1 ≠ DBKey.sendAll 7 1)) = true := by
  decide

/-- C6 (amended): `getValidMPTX` first looks up the primary transaction
record and reports that record's validity flag, block, type and numeric
payload; when no primary record exists it falls back to the payment
sub-records and reports the first one's validity flag, block, type 0
and its value re-read as an `int64_t`; when neither exists it reports
the transaction as not valid.  (A record whose validity flag is 0 is
likewise reported as not valid even though it exists.) -/
theorem getValidMPTX_spec (readV : DBValue → Option Nat) (db : DB) (x : Nat)
    (hs : DBSorted db) (hwf : DBWF db = true)
    (hnum : ∀ n, readV (DBValue.num n) = some n) :
    (∀ e, (scanSub db tagTxRec x).head? = some e →
      ∃ b vl ty n, e = (DBKey.txRec x b vl ty, DBValue.num n) ∧
        getValidMPTX readV db x =
          ⟨decide (0 < vl), some b, some ty, some n⟩) ∧
    (scanSub db tagTxRec x = [] →
      ∀ e, (scanSub db tagPayment x).head? = some e →
        (∀ w, readV e.2 = some w →
          getValidMPTX readV db x =
            ⟨decide (0 < e.1.validOf), some e.1.blockOf, some 0, some w⟩) ∧
        (readV e.2 = none →
          getValidMPTX readV db x = ⟨false, none, none, none⟩)) ∧
    (hasSchemaRow db tagTxRec x = false → hasSchemaRow db tagPayment x = false →
      getValidMPTX readV db x = ⟨false, none, none, none⟩) := by
  refine ⟨?_, ?_, ?_⟩
  · intro e hh
    have hmem : e ∈ scanSub db tagTxRec x := List.mem_of_mem_head? hh
    have hprops := (mem_scanSub hs).mp hmem
    obtain ⟨t0, b0, vl0, ty0, hk⟩ := tag_eq_txRec hprops.2.1
    have hx : t0 = x := by
      have := hprops.2.2
      rw [hk] at this
      simpa [DBKey.fields] using this
    subst hx
    have hv : ∃ n, e.2 = DBValue.num n := by
      have h1 := DBWF_mem hwf hprops.1
      have h2 : rowWF (DBKey.txRec t0 b0 vl0 ty0, e.2) = true := by
        rw [← hk]
        exact h1
      cases hval : e.2 <;> rw [hval] at h2 <;>
        first
          | exact ⟨_, rfl⟩
          | exact absurd h2 (by simp [rowWF])
    obtain ⟨n0, hv⟩ := hv
    refine ⟨b0, vl0, ty0, n0, ?_, ?_⟩
    · rw [← hk, ← hv]
    · have he : e = (DBKey.txRec t0 b0 vl0 ty0, DBValue.num n0) := by rw [← hk, ← hv]
      rw [he] at hh
      simp only [getValidMPTX, getTX, hh, hnum]
      rfl
  · intro hnilT e hh
    have hgtx : getTX readV db x = none := by
      simp only [getTX, hnilT, List.head?_nil]
    constructor
    · intro w hw
      simp only [getValidMPTX, hgtx, hh, hw]
    · intro hw
      simp only [getValidMPTX, hgtx, hh, hw]
  · intro hT hP
    simp only [getValidMPTX, getTX, (scanSub_nil_iff hs).mpr hT,
      (scanSub_nil_iff hs).mpr hP, List.head?_nil]

theorem getValidMPTX_spec_witness :
    ∃ b vl ty n,
      ((DBKey.txRec 9 100 1 0, DBValue.num 11) : DBKey × DBValue) =
        (DBKey.txRec 9 b vl ty, DBValue.num n) ∧
      getValidMPTX (fun v => match v with | DBValue.num n => some n | _ => none)
        sampleDb 9 = ⟨decide (0 < vl), some b, some ty, some n⟩ :=
  (getValidMPTX_spec (fun v => match v with | DBValue.num n => some n | _ => none)
    sampleDb 9 (by decide) (by decide) (fun _ => rfl)).1
    (DBKey.txRec 9 100 1 0, DBValue.num 11) (by decide)

/-- C6 counterexample: a store holding a primary record whose validity
flag is 0 — `getValidMPTX` reports the transaction as not valid even
though a primary record exists, refuting the claim that only when
neither a primary record nor a payment sub-record exists does it report
the transaction as not valid. -/
theorem getValidMPTX_counterexample :
    hasSchemaRow [(DBKey.txRec 5 100 0 3, DBValue.num 42)] tagTxRec 5 = true ∧
    (getValidMPTX (fun v => match v with | DBValue.num n => some n | _ => none)
      [(DBKey.txRec 5 100 0 3, DBValue.num 42)] 5).validity = false := by
  decide

/-- C8: `IsPersistenceEnabled` returns true if and only if the height
strictly exceeds the configured minimum height and is an exact multiple
of the checkpoint interval selected by the initial-block-download flag;
the interval used during initial block download is smaller than the
steady-state one. -/
theorem IsPersistenceEnabled_spec (cfg : PersistenceConfig) (isIBD : Bool) (h : Int) :
    (IsPersistenceEnabled cfg isIBD h = true ↔
      cfg.nMinHeight < h ∧
        Int.tmod h (if isIBD then cfg.storeEveryIDB else cfg.storeEvery) = 0) ∧
    cfg.storeEveryIDB < cfg.storeEvery := by
  constructor
  · unfold IsPersistenceEnabled
    simp [Bool.and_eq_true, decide_eq_true_eq, beq_iff_eq]
  · exact cfg.idb_lt

/-- C7 (amended): `prune_state_files` never deletes a file whose
embedded hash equals the active block's hash, deletes every state file
whose embedded hash differs, and leaves non-state entries alone; hence
at most one checkpoint remains — the active one exactly when its files
were present, and none when they were absent. -/
theorem prune_state_files_spec (topHash : Nat) (dir : List DirEntry) :
    (∀ i h, DirEntry.stateFile i h ∈ prune_state_files topHash dir ↔
      DirEntry.stateFile i h ∈ dir ∧ h = topHash) ∧
    (∀ n, DirEntry.otherFile n ∈ prune_state_files topHash dir ↔
      DirEntry.otherFile n ∈ dir) ∧
    (∀ n, DirEntry.nonRegular n ∈ prune_state_files topHash dir ↔
      DirEntry.nonRegular n ∈ dir) ∧
    (∀ h, h ∈ statefulBlockHashes (prune_state_files topHash dir) → h = topHash) := by
  have hmemhash : ∀ i h, DirEntry.stateFile i h ∈ dir → h ∈ statefulBlockHashes dir := by
    intro i h hm
    unfold statefulBlockHashes
    rw [List.mem_dedup, List.mem_filterMap]
    exact ⟨DirEntry.stateFile i h, hm, rfl⟩
  refine ⟨?_, ?_, ?_, ?_⟩
  · intro i h
    unfold prune_state_files
    rw [List.mem_filter]
    constructor
    · rintro ⟨hm, hp⟩
      refine ⟨hm, ?_⟩
      simp only [Bool.not_eq_true', Bool.and_eq_false_iff, decide_eq_false_iff_not,
        bne, Bool.not_eq_false', beq_iff_eq] at hp
      rcases hp with hp | hp
      · exact absurd (hmemhash i h hm) hp
      · exact hp
    · rintro ⟨hm, rfl⟩
      refine ⟨hm, ?_⟩
      simp
  · intro n
    unfold prune_state_files
    rw [List.mem_filter]
    simp
  · intro n
    unfold prune_state_files
    rw [List.mem_filter]
    simp
  · intro h hm
    unfold statefulBlockHashes at hm
    rw [List.mem_dedup, List.mem_filterMap] at hm
    obtain ⟨e, he, hval⟩ := hm
    cases e
    case stateFile i h1 =>
      have hh : h1 = h := by simpa using hval
      subst hh
      unfold prune_state_files at he
      rw [List.mem_filter] at he
      have hp := he.2
      simp only [Bool.not_eq_true', Bool.and_eq_false_iff, decide_eq_false_iff_not,
        bne, Bool.not_eq_false', beq_iff_eq] at hp
      rcases hp with hp | hp
      · exact absurd (hmemhash i h1 he.1) hp
      · exact hp
    all_goals exact absurd hval (by simp)

theorem prune_state_files_spec_witness :
    (DirEntry.stateFile 0 5 ∈
        prune_state_files 5 [DirEntry.stateFile 0 5, DirEntry.otherFile "x"] ↔
      DirEntry.stateFile 0 5 ∈ [DirEntry.stateFile 0 5, DirEntry.otherFile "x"] ∧
        (5 : Nat) = 5) ∧
    (5 : Nat) = 5 :=
  ⟨(prune_state_files_spec 5 [DirEntry.stateFile 0 5, DirEntry.otherFile "x"]).1 0 5,
   (prune_state_files_spec 5 [DirEntry.stateFile 0 5]).2.2.2 5 (by decide)⟩

/-- C7 counterexample: a directory holding a state file only for a hash
that differs from the active block's hash — after pruning no checkpoint
remains at all, refuting the claim that exactly one checkpoint (the
active one) remains afterwards. -/
theorem prune_state_files_counterexample :
    prune_state_files 2 [DirEntry.stateFile 0 1] = [] ∧
    statefulBlockHashes (prune_state_files 2 [DirEntry.stateFile 0 1]) = [] := by
  decide

theorem IsPersistenceEnabled_spec_witness :
    IsPersistenceEnabled ⟨0, 100, 10000, by decide, by decide, by decide⟩ true 200 = true :=
  (IsPersistenceEnabled_spec ⟨0, 100, 10000, by decide, by decide, by decide⟩ true 200).1.mpr
    (by decide)

theorem parsePropertyTuple_nonzero {addr s : String} {us : List TallyUpdate}
    (h : parsePropertyTuple addr s = some us) : ∀ u ∈ us, u.amount ≠ 0 := by
  simp only [parsePropertyTuple] at h
  split at h
  · split at h
    · split at h
      case h_1 pid bal sell acc meta hm =>
        have hus := Option.some.inj h
        intro u hu
        rw [← hus] at hu
        simp only [List.mem_append] at hu
        rcases hu with ((hu | hu) | hu) | hu
        · split at hu
          next hcond =>
            rw [List.mem_singleton] at hu
            subst hu
            exact hcond
          next => cases hu
        · split at hu
          next hcond =>
            rw [List.mem_singleton] at hu
            subst hu
            exact hcond
          next => cases hu
        · split at hu
          next hcond =>
            rw [List.mem_singleton] at hu
            subst hu
            exact hcond
          next => cases hu
        · split at hu
          next hcond =>
            rw [List.mem_singleton] at hu
            subst hu
            exact hcond
          next => cases hu
      case h_2 => cases h
    · cases h
  · cases h

theorem processProperties_nonzero {addr : String} :
    ∀ {l : List String} {us : List TallyUpdate},
      processProperties addr l = some us → ∀ u ∈ us, u.amount ≠ 0
  | [], us, h => by
    cases h
    intro u hu
    cases hu
  | p :: rest, us, h => by
    simp only [processProperties] at h
    split at h
    · exact processProperties_nonzero h
    · split at h
      · cases h
      case h_2 us1 hp =>
        split at h
        · cases h
        case h_2 vs hrest =>
          cases h
          intro u hu
          rcases List.mem_append.mp hu with hu | hu
          · exact parsePropertyTuple_nonzero hp u hu
          · exact processProperties_nonzero hrest u hu

/-- C9: every balances snapshot line written by the checkpoint writer
contains no property entry whose four amounts are all zero and no line
at all for an address none of whose properties has a nonzero amount,
while every entry with some nonzero amount is written; and restoring a
balances line applies only non-zero amounts to the in-memory tally. -/
theorem msc_balances_spec :
    (∀ tally : List (String × List PropBal), ∀ a ∈ write_msc_balances tally,
      a.2 ≠ [] ∧ ∀ p ∈ a.2, p.isZero = false) ∧
    (∀ tally : List (String × List PropBal), ∀ a ∈ tally,
      (∃ p ∈ a.2, p.isZero = false) →
        (a.1, a.2.filter fun p => !p.isZero) ∈ write_msc_balances tally) ∧
    (∀ s us, input_msc_balances_string s = some us → ∀ u ∈ us, u.amount ≠ 0) := by
  refine ⟨?_, ?_, ?_⟩
  · intro tally a ha
    simp only [write_msc_balances] at ha
    rw [List.mem_filterMap] at ha
    obtain ⟨b, _, hval⟩ := ha
    split at hval
    · cases hval
    case isFalse hne =>
      have := Option.some.inj hval
      subst this
      constructor
      · intro hc
        have hc2 : List.filter (fun p => !p.isZero) b.2 = [] := hc
        rw [hc2] at hne
        exact hne rfl
      · intro p hp
        have hp2 : p ∈ List.filter (fun q => !q.isZero) b.2 := hp
        have hz := List.of_mem_filter hp2
        revert hz
        cases p.isZero <;> simp
  · intro tally a ha hnz
    simp only [write_msc_balances]
    rw [List.mem_filterMap]
    refine ⟨a, ha, ?_⟩
    obtain ⟨p, hp, hpz⟩ := hnz
    have hmem : p ∈ a.2.filter fun p => !p.isZero := by
      rw [List.mem_filter, hpz]
      exact ⟨hp, rfl⟩
    rw [if_neg ?_]
    intro hc
    rw [List.isEmpty_iff] at hc
    rw [hc] at hmem
    cases hmem
  · intro s us h u hu
    simp only [input_msc_balances_string] at h
    split at h
    · exact processProperties_nonzero h u hu
    · cases h

theorem msc_balances_spec_witness :
    (⟨2, 5, 0, 0, 0⟩ : PropBal).isZero = false ∧
    (⟨"b", 2, 5, TallyType.BALANCE⟩ : TallyUpdate).amount ≠ 0 :=
  ⟨(msc_balances_spec.1 [("a", [⟨1, 0, 0, 0, 0⟩]), ("b", [⟨2, 5, 0, 0, 0⟩])]
      ("b", [⟨2, 5, 0, 0, 0⟩]) (by decide)).2 ⟨2, 5, 0, 0, 0⟩ (by decide),
   msc_balances_spec.2.2 "b=2:5,0,0,0;" [⟨"b", 2, 5, TallyType.BALANCE⟩] (by decide)
     ⟨"b", 2, 5, TallyType.BALANCE⟩ (by decide)⟩

theorem restoreLoop_res (parse : String → Int) (v : Bool) :
    ∀ (lines hashed : List String) (fh : String),
      (restoreLoop parse v lines hashed fh).1 = 0 ∨
        (restoreLoop parse v lines hashed fh).1 = -1
  | [], _, _ => Or.inl rfl
  | line :: rest, hashed, fh => by
    simp only [restoreLoop]
    split
    · exact restoreLoop_res parse v rest hashed fh
    · split
      · exact restoreLoop_res parse v rest hashed _
      · split
        · exact Or.inr rfl
        · exact restoreLoop_res parse v rest _ fh

theorem restoreAllLoop_all_ok (hashFn : List String → String)
    (files : Nat → Option (List String)) (parsers : Nat → String → Int) :
    ∀ (l : List Nat) (blk : Int),
      (∀ i ∈ l, 0 ≤ RestoreInMemoryState hashFn (files i) (parsers i) true) →
      restoreAllLoop hashFn files parsers l blk = blk
  | [], _, _ => rfl
  | i :: rest, blk, h => by
    simp only [restoreAllLoop]
    rw [if_neg (not_lt.mpr (h i (List.mem_cons_self _ _)))]
    exact restoreAllLoop_all_ok hashFn files parsers rest blk
      fun j hj => h j (List.mem_cons_of_mem _ hj)

theorem restoreAllLoop_fail (hashFn : List String → String)
    (files : Nat → Option (List String)) (parsers : Nat → String → Int) :
    ∀ (l : List Nat) (blk : Int) (i : Nat), i ∈ l →
      RestoreInMemoryState hashFn (files i) (parsers i) true < 0 →
      restoreAllLoop hashFn files parsers l blk = -1
  | [], _, i, hi, _ => absurd hi (List.not_mem_nil i)
  | j :: rest, blk, i, hi, hfail => by
    simp only [restoreAllLoop]
    split
    · rfl
    case isFalse hok =>
      rcases List.mem_cons.mp hi with rfl | hr
      · exact absurd hfail hok
      · exact restoreAllLoop_fail hashFn files parsers rest blk i hr hfail

/-- C3: `LoadMostRelevantInMemoryState` returns the reparse sentinel -1
when the SP-database watermark is absent; if any one of the six tables'
restores reports failure the whole restore returns -1; only when every
table restores does it return the watermark height; and a single
table's verified restore fails (returns -1) exactly when a line parse
fails or the recomputed digest mismatches the stored one. -/
theorem LoadMostRelevantInMemoryState_spec (hashFn : List String → String)
    (files : Nat → Option (List String)) (parsers : Nat → String → Int)
    (w : Nat) (blk : Int) :
    (LoadMostRelevantInMemoryState hashFn none files parsers = -1) ∧
    ((∀ i, i < 6 → 0 ≤ RestoreInMemoryState hashFn (files i) (parsers i) true) →
      LoadMostRelevantInMemoryState hashFn (some (w, blk)) files parsers = blk) ∧
    (∀ i, i < 6 → RestoreInMemoryState hashFn (files i) (parsers i) true < 0 →
      LoadMostRelevantInMemoryState hashFn (some (w, blk)) files parsers = -1) ∧
    (∀ lines parse,
      RestoreInMemoryState hashFn (some lines) parse true = -1 ↔
        ((restoreLoop parse true lines [] "").1 = -1 ∨
          ((restoreLoop parse true lines [] "").1 = 0 ∧
            ieqHex (hashFn (restoreLoop parse true lines [] "").2.1)
              (restoreLoop parse true lines [] "").2.2 = false))) := by
  refine ⟨rfl, ?_, ?_, ?_⟩
  · intro h
    unfold LoadMostRelevantInMemoryState
    apply restoreAllLoop_all_ok
    intro i hi
    apply h
    simp only [List.mem_cons, List.not_mem_nil, or_false] at hi
    omega
  · intro i hi hfail
    unfold LoadMostRelevantInMemoryState
    apply restoreAllLoop_fail hashFn files parsers _ _ i _ hfail
    simp only [List.mem_cons, List.not_mem_nil, or_false]
    omega
  · intro lines parse
    simp only [RestoreInMemoryState]
    rcases restoreLoop_res parse true lines [] "" with h0 | h1
    · rw [h0]
      cases hieq : ieqHex (hashFn (restoreLoop parse true lines [] "").2.1)
          (restoreLoop parse true lines [] "").2.2 <;> simp [hieq]
    · rw [h1]
      simp

theorem LoadMostRelevantInMemoryState_spec_witness :
    LoadMostRelevantInMemoryState (fun _ => "d") (some (1, 7)) (fun _ => some ["!d"])
      (fun _ _ => 0) = 7 ∧
    LoadMostRelevantInMemoryState (fun _ => "d") (some (1, 7)) (fun _ => none)
      (fun _ _ => 0) = -1 :=
  ⟨(LoadMostRelevantInMemoryState_spec (fun _ => "d") (fun _ => some ["!d"])
      (fun _ _ => 0) 1 7).2.1 (fun i _ => by decide),
   (LoadMostRelevantInMemoryState_spec (fun _ => "d") (fun _ => none)
      (fun _ _ => 0) 1 7).2.2.1 0 (by decide) (by decide)⟩

theorem keyLtB_blockTx_zero {b L t : Nat} (hb : b < 4294967296) (hL : L < 4294967296) :
    (keyLtB (DBKey.blockTx b t) (DBKey.blockTx L 0) = true) ↔ L < b := by
  have h1 : b % 4294967296 = b := Nat.mod_eq_of_lt hb
  have h2 : L % 4294967296 = L := Nat.mod_eq_of_lt hL
  simp only [keyLtB, DBKey.tag, DBKey.fields, lexLt, Bool.or_eq_true, Bool.and_eq_true,
    decide_eq_true_eq, beq_iff_eq, inv32, UINT32_MAX, h1, h2, Bool.false_eq_true,
    and_false, or_false, false_or, true_and]
  omega

theorem mem_collectBlockTxs {first : Nat} :
    ∀ (l : DB) (acc : Finset Nat),
      List.Pairwise (fun a b => keyLtB a.1 b.1 = true) l →
      (∀ e ∈ l, ∃ b t, e.1 = DBKey.blockTx b t ∧ b < 4294967296) →
      ∀ x, x ∈ collectBlockTxs first l acc ↔
        x ∈ acc ∨ ∃ b v, (DBKey.blockTx b x, v) ∈ l ∧ first ≤ b
  | [], acc, _, _, x => by simp [collectBlockTxs]
  | e :: rest, acc, hp, hall, x => by
    obtain ⟨be, te, hk, hbe⟩ := hall e (List.mem_cons_self _ _)
    have hdec : decodeBlockTx e.1 = (be, te) := by rw [hk]; rfl
    rw [List.pairwise_cons] at hp
    simp only [collectBlockTxs, hdec]
    by_cases hlt : be < first
    · rw [if_pos hlt]
      constructor
      · exact Or.inl
      · rintro (h | ⟨b, v, hm, hfb⟩)
        · exact h
        · exfalso
          rcases List.mem_cons.mp hm with hme | hmr
          · have : e.1 = DBKey.blockTx b x := by rw [← hme]
            rw [hk] at this
            have hbb : be = b := (DBKey.blockTx.inj this).1
            omega
          · have hkl := hp.1 _ hmr
            rw [hk] at hkl
            obtain ⟨b2, t2, hk2, hb2⟩ := hall _ (List.mem_cons_of_mem _ hmr)
            have : (DBKey.blockTx b x, v).1 = DBKey.blockTx b x := rfl
            rw [this] at hk2
            have hbb : b = b2 := (DBKey.blockTx.inj hk2).1
            subst hbb
            simp only [keyLtB, DBKey.tag, DBKey.fields, lexLt, Bool.or_eq_true,
              Bool.and_eq_true, decide_eq_true_eq, beq_iff_eq, inv32, UINT32_MAX] at hkl
            omega
    · rw [if_neg hlt]
      rw [mem_collectBlockTxs rest (insert te acc) hp.2
        (fun f hf => hall f (List.mem_cons_of_mem _ hf)) x]
      rw [Finset.mem_insert]
      constructor
      · rintro ((rfl | ha) | ⟨b, v, hm, hfb⟩)
        · refine Or.inr ⟨be, e.2, ?_, by omega⟩
          have : e = (DBKey.blockTx be x, e.2) := by
            rw [← hk]
          rw [← this]
          exact List.mem_cons_self _ _
        · exact Or.inl ha
        · exact Or.inr ⟨b, v, List.mem_cons_of_mem _ hm, hfb⟩
      · rintro (ha | ⟨b, v, hm, hfb⟩)
        · exact Or.inl (Or.inr ha)
        · rcases List.mem_cons.mp hm with hme | hmr
          · have : e.1 = DBKey.blockTx b x := by rw [← hme]
            rw [hk] at this
            have := DBKey.blockTx.inj this
            exact Or.inl (Or.inl this.2.symm)
          · exact Or.inr ⟨b, v, hmr, hfb⟩

/-- C5: for heights `first <= last` (with `last` in `uint32` range),
`GetOmniTxsInBlockRange` starting from the empty in-out set returns
exactly the transaction ids having a block-index row at a height `h`
with `first <= h <= last`, both bounds inclusive, via a descending scan
of the block-index schema seeked at `last`. -/
theorem GetOmniTxsInBlockRange_spec (db : DB) (first last : Nat) (hs : DBSorted db)
    (hwf : DBWF db = true) (hfl : first ≤ last) (hlast : last < 4294967296) :
    ∀ x, x ∈ GetOmniTxsInBlockRange db first last ∅ ↔
      ∃ b v, (DBKey.blockTx b x, v) ∈ db ∧ first ≤ b ∧ b ≤ last := by
  intro x
  unfold GetOmniTxsInBlockRange
  rw [Nat.mod_eq_of_lt hlast]
  have hSfilter := seekTag_eq_filter db (DBKey.blockTx last 0) hs
  have hSp : List.Pairwise (fun a b => keyLtB a.1 b.1 = true)
      (seekTag db (DBKey.blockTx last 0)) :=
    hs.sublist (seekTag_sublist db (DBKey.blockTx last 0))
  have hall : ∀ e ∈ seekTag db (DBKey.blockTx last 0),
      ∃ b t, e.1 = DBKey.blockTx b t ∧ b < 4294967296 := by
    intro e he
    rw [hSfilter, List.mem_filter] at he
    have htag : e.1.tag = tagBlockTx := by
      have := he.2
      simp only [Bool.and_eq_true, beq_iff_eq] at this
      exact this.1
    obtain ⟨b, t, hk⟩ := tag_eq_blockTx htag
    refine ⟨b, t, hk, ?_⟩
    have h1 := DBWF_mem hwf he.1
    have h2 : rowWF (DBKey.blockTx b t, e.2) = true := by
      rw [← hk]
      exact h1
    simpa [rowWF] using h2
  rw [mem_collectBlockTxs _ ∅ hSp hall x]
  simp only [Finset.not_mem_empty, false_or]
  constructor
  · rintro ⟨b, v, hm, hfb⟩
    rw [hSfilter, List.mem_filter] at hm
    have hb : b < 4294967296 := by
      have h2 : rowWF (DBKey.blockTx b x, v) = true := DBWF_mem hwf hm.1
      simpa [rowWF] using h2
    have hble : b ≤ last := by
      have := hm.2
      simp only [Bool.and_eq_true, Bool.not_eq_true'] at this
      have hnot := this.2
      by_contra hgt
      rw [(keyLtB_blockTx_zero hb hlast).mpr (by omega)] at hnot
      cases hnot
    exact ⟨b, v, hm.1, hfb, hble⟩
  · rintro ⟨b, v, hm, hfb, hbl⟩
    refine ⟨b, v, ?_, hfb⟩
    rw [hSfilter, List.mem_filter]
    have hb : b < 4294967296 := by
      have h2 : rowWF (DBKey.blockTx b x, v) = true := DBWF_mem hwf hm
      simpa [rowWF] using h2
    refine ⟨hm, ?_⟩
    simp only [Bool.and_eq_true, Bool.not_eq_true', beq_iff_eq]
    refine ⟨rfl, ?_⟩
    rw [Bool.eq_false_iff]
    intro hc
    rw [keyLtB_blockTx_zero hb hlast] at hc
    omega

theorem GetOmniTxsInBlockRange_spec_witness :
    (10 ∈ GetOmniTxsInBlockRange sampleDb 100 105 ∅ ↔
      ∃ b v, (DBKey.blockTx b 10, v) ∈ sampleDb ∧ 100 ≤ b ∧ b ≤ 105) ∧
    GetOmniTxsInBlockRange sampleDb 100 105 ∅ = {10, 20} :=
  ⟨GetOmniTxsInBlockRange_spec sampleDb 100 105 (by decide) (by decide)
      (by decide) (by decide) 10,
   by decide⟩

theorem keyLtB_blockTx_le {b1 t1 b2 t2 : Nat} (hb1 : b1 < 4294967296)
    (hb2 : b2 < 4294967296)
    (h : keyLtB (DBKey.blockTx b1 t1) (DBKey.blockTx b2 t2) = true) : b2 ≤ b1 := by
  have h1 : b1 % 4294967296 = b1 := Nat.mod_eq_of_lt hb1
  have h2 : b2 % 4294967296 = b2 := Nat.mod_eq_of_lt hb2
  simp only [keyLtB, DBKey.tag, DBKey.fields, lexLt, Bool.or_eq_true, Bool.and_eq_true,
    decide_eq_true_eq, beq_iff_eq, inv32, UINT32_MAX, h1, h2] at h
  omega

theorem mem_phase1Keys {db : DB} {blk : Nat} (hs : DBSorted db) (hwf : DBWF db = true)
    {k : DBKey} :
    k ∈ phase1Keys db blk ↔ ∃ b t v, k = DBKey.blockTx b t ∧ (k, v) ∈ db ∧ blk ≤ b := by
  have hSf := seekTag_eq_filter db (DBKey.blockTx UINT32_MAX 0) hs
  have hSp : List.Pairwise (fun a b => keyLtB a.1 b.1 = true)
      (seekTag db (DBKey.blockTx UINT32_MAX 0)) :=
    hs.sublist (seekTag_sublist db (DBKey.blockTx UINT32_MAX 0))
  have hSshape : ∀ e ∈ seekTag db (DBKey.blockTx UINT32_MAX 0),
      ∃ b t, e.1 = DBKey.blockTx b t ∧ b < 4294967296 ∧ (e.1, e.2) ∈ db := by
    intro e he
    have hed : e ∈ db := (seekTag_sublist db _).mem he
    rw [hSf, List.mem_filter] at he
    have htag : e.1.tag = tagBlockTx := by
      have := he.2
      simp only [Bool.and_eq_true, beq_iff_eq] at this
      exact this.1
    obtain ⟨b, t, hk⟩ := tag_eq_blockTx htag
    refine ⟨b, t, hk, ?_, hed⟩
    have h2 : rowWF (DBKey.blockTx b t, e.2) = true := by
      rw [← hk]
      exact DBWF_mem hwf he.1
    simpa [rowWF] using h2
  unfold phase1Keys
  rw [takeWhile_eq_filter_self _ (fun a b => keyLtB a.1 b.1 = true) _ hSp ?hfwd]
  case hfwd =>
    intro a ha b hb hr hqa
    obtain ⟨ba, ta, hka, hba, _⟩ := hSshape a ha
    obtain ⟨bb, tb, hkb, hbb, _⟩ := hSshape b hb
    rw [hka, hkb] at hr
    have hle := keyLtB_blockTx_le hba hbb hr
    rw [hka] at hqa
    rw [hkb]
    simp only [decodeBlockTx, decide_eq_false_iff_not, not_le] at hqa ⊢
    omega
  rw [List.mem_map]
  constructor
  · rintro ⟨e, he, rfl⟩
    rw [List.mem_filter] at he
    obtain ⟨b, t, hk, _, hmem⟩ := hSshape e he.1
    refine ⟨b, t, e.2, hk, hmem, ?_⟩
    have := he.2
    rw [hk] at this
    simpa [decodeBlockTx] using this
  · rintro ⟨b, t, v, rfl, hmem, hble⟩
    refine ⟨(DBKey.blockTx b t, v), ?_, rfl⟩
    rw [List.mem_filter]
    constructor
    · rw [hSf, List.mem_filter]
      refine ⟨hmem, ?_⟩
      have hb : b < 4294967296 := by
        have h2 : rowWF (DBKey.blockTx b t, v) = true := DBWF_mem hwf hmem
        simpa [rowWF] using h2
      simp only [Bool.and_eq_true, beq_iff_eq, Bool.not_eq_true']
      refine ⟨rfl, ?_⟩
      rw [Bool.eq_false_iff]
      intro hc
      rw [keyLtB_blockTx_zero hb (by simp [UINT32_MAX])] at hc
      unfold UINT32_MAX at hc
      omega
    · simpa [decodeBlockTx] using hble

theorem deleteToBatch_found {db : DB} {t x : Nat} (hs : DBSorted db) :
    (deleteToBatch db t x).2 = hasSchemaRow db t x := by
  unfold deleteToBatch
  cases hh : hasSchemaRow db t x
  · rw [(scanSub_nil_iff hs).mpr hh]
    rfl
  · simp only []
    rw [Bool.not_eq_true', Bool.eq_false_iff]
    intro hc
    rw [List.isEmpty_iff, List.map_eq_nil_iff] at hc
    rw [(scanSub_nil_iff hs).mp hc] at hh
    cases hh

theorem mem_deleteToBatch {db : DB} {t x : Nat} (hs : DBSorted db) {k : DBKey} :
    k ∈ (deleteToBatch db t x).1 ↔
      (∃ v, (k, v) ∈ db) ∧ k.tag = t ∧ k.fields.headD 0 = x := by
  unfold deleteToBatch
  simp only [List.mem_map]
  constructor
  · rintro ⟨e, he, rfl⟩
    have := (mem_scanSub hs).mp he
    exact ⟨⟨e.2, this.1⟩, this.2⟩
  · rintro ⟨⟨v, hv⟩, htag, hhead⟩
    refine ⟨(k, v), ?_, rfl⟩
    rw [mem_scanSub hs]
    exact ⟨hv, htag, hhead⟩

set_option maxHeartbeats 1000000 in
theorem mem_phase2One {db : DB} {x : Nat} (hs : DBSorted db) {k : DBKey} :
    k ∈ (phase2One db x).1 ↔
      (∃ v, (k, v) ∈ db) ∧ k.fields.headD 0 = x ∧
        (k.tag = tagTxRec ∨
         (k.tag = tagPayment ∧ hasSchemaRow db tagTxRec x = false) ∨
         (k.tag = tagCancel ∧ hasSchemaRow db tagTxRec x = false ∧
           hasSchemaRow db tagPayment x = false) ∨
         k.tag = tagSendAll ∨ k.tag = tagTxToCancel) := by
  have hfoundT := deleteToBatch_found (t := tagTxRec) (x := x) hs
  have hfoundP := deleteToBatch_found (t := tagPayment) (x := x) hs
  cases hT : hasSchemaRow db tagTxRec x <;> cases hP : hasSchemaRow db tagPayment x <;>
    · rw [hT] at hfoundT
      rw [hP] at hfoundP
      simp only [phase2One, hfoundT, hfoundP, Bool.false_or, Bool.true_or, Bool.or_self,
        Bool.or_false, Bool.or_true, if_true, if_false, List.append_nil, List.nil_append,
        List.mem_append, List.not_mem_nil, false_or, or_false, Bool.true_eq_false,
        Bool.false_eq_true, ite_true, ite_false, cond_true, cond_false,
        mem_deleteToBatch hs]
      tauto

theorem mem_phase2_keys (db : DB) :
    ∀ (txs : List Nat) (k : DBKey),
      (k ∈ (phase2 db txs).1 ↔ ∃ x, x ∈ txs ∧ k ∈ (phase2One db x).1)
  | [], k => by simp [phase2]
  | x :: rest, k => by
    simp only [phase2, List.mem_append, List.mem_cons]
    rw [mem_phase2_keys db rest k]
    constructor
    · rintro (h | ⟨y, hy, hk⟩)
      · exact ⟨x, Or.inl rfl, h⟩
      · exact ⟨y, Or.inr hy, hk⟩
    · rintro ⟨y, rfl | hy, hk⟩
      · exact Or.inl hk
      · exact Or.inr ⟨y, hy, hk⟩

theorem phase2One_flag {db : DB} {x : Nat} (hs : DBSorted db) :
    (phase2One db x).2 = (!hasSchemaRow db tagTxRec x && !hasSchemaRow db tagPayment x &&
      hasSchemaRow db tagCancel x) := by
  have hfoundT := deleteToBatch_found (t := tagTxRec) (x := x) hs
  have hfoundP := deleteToBatch_found (t := tagPayment) (x := x) hs
  have hfoundC := deleteToBatch_found (t := tagCancel) (x := x) hs
  cases hT : hasSchemaRow db tagTxRec x <;> cases hP : hasSchemaRow db tagPayment x <;>
    · rw [hT] at hfoundT
      rw [hP] at hfoundP
      simp [phase2One, hfoundT, hfoundP, hfoundC, hT, hP]

theorem phase2_cancels (db : DB) (hs : DBSorted db) :
    ∀ txs : List Nat, (phase2 db txs).2 = cancelSet db txs
  | [] => rfl
  | x :: rest => by
    have hrec := phase2_cancels db hs rest
    unfold cancelSet at hrec ⊢
    simp only [phase2, List.filter_cons, phase2One_flag hs, hrec]
    cases hflag : (!hasSchemaRow db tagTxRec x && !hasSchemaRow db tagPayment x &&
        hasSchemaRow db tagCancel x) <;> simp [hflag]

theorem keyLtB_txToCancel_iff {T T2 : Nat} :
    keyLtB (DBKey.txToCancel T) (DBKey.txToCancel T2) = true ↔ T < T2 := by
  simp [keyLtB, DBKey.tag, DBKey.fields, lexLt]

theorem keyLtB_txToCancel_zero {t : Nat} :
    keyLtB (DBKey.txToCancel t) (DBKey.txToCancel 0) = false := by
  simp [keyLtB, DBKey.tag, DBKey.fields, lexLt]

theorem mem_phase3Keys {k : DBKey} :
    ∀ (rows : DB) (cancels : List Nat), cancels.Nodup →
      (k ∈ phase3Keys rows cancels ↔
        ∃ X, X ∈ cancels ∧
          ∃ w, rows.find? (fun e => decodeTxidV e.2 == X) = some (k, w))
  | [], cancels, _ => by simp [phase3Keys]
  | e :: rest, cancels, hnd => by
    cases hemp : cancels.isEmpty
    · simp only [phase3Keys, hemp, Bool.false_eq_true, if_false]
      by_cases hx0 : decodeTxidV e.2 ∈ cancels
      · rw [if_pos hx0]
        simp only [List.mem_cons]
        rw [mem_phase3Keys rest (cancels.erase (decodeTxidV e.2)) (hnd.erase _)]
        constructor
        · rintro (rfl | ⟨X, hX, w, hfind⟩)
          · refine ⟨decodeTxidV e.2, hx0, e.2, ?_⟩
            rw [List.find?_cons_of_pos _ (by simp)]
          · refine ⟨X, (List.Nodup.mem_erase_iff hnd).mp hX |>.2, w, ?_⟩
            rw [List.find?_cons_of_neg _ ?hne]
            · exact hfind
            case hne =>
              have hXne := ((List.Nodup.mem_erase_iff hnd).mp hX).1
              simp only [beq_iff_eq]
              exact fun hc => hXne hc.symm
        · rintro ⟨X, hX, w, hfind⟩
          by_cases hXe : decodeTxidV e.2 = X
          · rw [List.find?_cons_of_pos _ (by simp [hXe])] at hfind
            have := Option.some.inj hfind
            exact Or.inl (congrArg Prod.fst this).symm
          · rw [List.find?_cons_of_neg _ (by simp only [beq_iff_eq]; exact hXe)] at hfind
            refine Or.inr ⟨X, ?_, w, hfind⟩
            rw [List.Nodup.mem_erase_iff hnd]
            exact ⟨fun hc => hXe hc.symm, hX⟩
      · rw [if_neg hx0]
        rw [mem_phase3Keys rest cancels hnd]
        constructor
        · rintro ⟨X, hX, w, hfind⟩
          refine ⟨X, hX, w, ?_⟩
          rw [List.find?_cons_of_neg _ ?hne2]
          · exact hfind
          case hne2 =>
            simp only [beq_iff_eq]
            intro hc
            rw [hc] at hx0
            exact hx0 hX
        · rintro ⟨X, hX, w, hfind⟩
          rw [List.find?_cons_of_neg _ ?hne3] at hfind
          · exact ⟨X, hX, w, hfind⟩
          case hne3 =>
            simp only [beq_iff_eq]
            intro hc
            rw [hc] at hx0
            exact hx0 hX
    · have hcn : cancels = [] := List.isEmpty_iff.mp hemp
      subst hcn
      simp [phase3Keys]

theorem find?_value_min {X : Nat} :
    ∀ (rows : DB),
      List.Pairwise (fun a b => keyLtB a.1 b.1 = true) rows →
      ∀ (k : DBKey) (w : DBValue),
        (rows.find? (fun e => decodeTxidV e.2 == X) = some (k, w) ↔
          ((k, w) ∈ rows ∧ decodeTxidV w = X ∧
            ∀ e ∈ rows, decodeTxidV e.2 = X → keyLtB e.1 k = false))
  | [], _, k, w => by simp
  | r :: rest, hp, k, w => by
    rw [List.pairwise_cons] at hp
    by_cases hr : decodeTxidV r.2 = X
    · rw [List.find?_cons_of_pos _ (by simp [hr])]
      constructor
      · intro hsome
        have hrkw : r = (k, w) := Option.some.inj hsome
        subst hrkw
        refine ⟨List.mem_cons_self _ _, hr, ?_⟩
        intro e he _
        rcases List.mem_cons.mp he with rfl | hrest
        · exact keyLtB_irrefl
        · have h1 := hp.1 e hrest
          rw [Bool.eq_false_iff]
          intro hc
          have h2 := keyLtB_trans hc h1
          rw [keyLtB_irrefl] at h2
          cases h2
      · rintro ⟨hmem, _, hmin⟩
        rcases List.mem_cons.mp hmem with heq | hrest
        · rw [← heq]
        · have h1 := hp.1 _ hrest
          have h2 := hmin r (List.mem_cons_self _ _) hr
          rw [h2] at h1
          cases h1
    · rw [List.find?_cons_of_neg _ (by simp [hr])]
      rw [find?_value_min rest hp.2 k w]
      constructor
      · rintro ⟨hmem, hwX, hmin⟩
        refine ⟨List.mem_cons_of_mem _ hmem, hwX, ?_⟩
        intro e he hX
        rcases List.mem_cons.mp he with rfl | hrest
        · exact absurd hX hr
        · exact hmin e hrest hX
      · rintro ⟨hmem, hwX, hmin⟩
        rcases List.mem_cons.mp hmem with heq | hrest
        · exfalso
          apply hr
          rw [← heq]
          exact hwX
        · exact ⟨hrest, hwX, fun e he hX => hmin e (List.mem_cons_of_mem _ he) hX⟩

theorem eRows_shape {db : DB} (hs : DBSorted db) (hwf : DBWF db = true) :
    ∀ e ∈ seekTag db (DBKey.txToCancel 0),
      ∃ T XX, e = (DBKey.txToCancel T, DBValue.txidV XX) := by
  intro e he
  rw [seekTag_eq_filter db _ hs, List.mem_filter] at he
  have htag : e.1.tag = tagTxToCancel := by
    have := he.2
    simp only [Bool.and_eq_true, beq_iff_eq] at this
    exact this.1
  obtain ⟨T, hk⟩ := tag_eq_txToCancel htag
  have h2 : rowWF (DBKey.txToCancel T, e.2) = true := by
    rw [← hk]
    exact DBWF_mem hwf he.1
  cases hv : e.2 <;> rw [hv] at h2 <;>
    first
      | exact ⟨T, _, by rw [← hk, ← hv]⟩
      | exact absurd h2 (by simp [rowWF])

theorem mem_eRows {db : DB} (hs : DBSorted db) {T : Nat} {w : DBValue} :
    ((DBKey.txToCancel T, w) ∈ seekTag db (DBKey.txToCancel 0)) ↔
      (DBKey.txToCancel T, w) ∈ db := by
  rw [seekTag_eq_filter db _ hs, List.mem_filter]
  simp [DBKey.tag, tagTxToCancel, keyLtB_txToCancel_zero]

theorem delKeys_iff (db : DB) (txs : List Nat) (blk : Nat)
    (hs : DBSorted db) (hwf : DBWF db = true) (hnd : txs.Nodup)
    (k : DBKey) (v : DBValue) (hkv : (k, v) ∈ db) :
    (k ∈ phase1Keys db blk ++ (phase2 db txs).1 ++
        phase3Keys (seekTag db (DBKey.txToCancel 0)) (phase2 db txs).2) ↔
      delSpec db txs blk k := by
  rw [List.mem_append, List.mem_append, or_assoc]
  unfold delSpec
  apply or_congr
  · constructor
    · rintro h
      obtain ⟨b, t, v', hk, _, hble⟩ := (mem_phase1Keys hs hwf).mp h
      exact ⟨b, t, hk, hble⟩
    · rintro ⟨b, t, hk, hble⟩
      exact (mem_phase1Keys hs hwf).mpr ⟨b, t, v, hk, hk ▸ hkv, hble⟩
  apply or_congr
  · rw [mem_phase2_keys db txs k]
    constructor
    · rintro ⟨x, hx, hin⟩
      obtain ⟨_, hhead, hdisj⟩ := (mem_phase2One hs).mp hin
      exact ⟨x, hx, hhead, hdisj⟩
    · rintro ⟨x, hx, hhead, hdisj⟩
      exact ⟨x, hx, (mem_phase2One hs).mpr ⟨⟨v, hkv⟩, hhead, hdisj⟩⟩
  · rw [phase2_cancels db hs txs]
    have hndc : (cancelSet db txs).Nodup := by
      unfold cancelSet
      exact hnd.filter _
    rw [mem_phase3Keys _ _ hndc]
    have hpe : List.Pairwise (fun a b => keyLtB a.1 b.1 = true)
        (seekTag db (DBKey.txToCancel 0)) :=
      hs.sublist (seekTag_sublist db _)
    constructor
    · rintro ⟨X, hX, w, hfind⟩
      obtain ⟨hmem, hwX, hminF⟩ := (find?_value_min _ hpe k w).mp hfind
      obtain ⟨T, X2, hshape⟩ := eRows_shape hs hwf _ hmem
      have hkT : k = DBKey.txToCancel T := congrArg Prod.fst hshape
      have hwX2 : w = DBValue.txidV X2 := congrArg Prod.snd hshape
      have hX2X : X2 = X := by
        rw [hwX2] at hwX
        simpa [decodeTxidV] using hwX
      subst hX2X
      refine ⟨T, X2, hkT, ?_, hX, ?_⟩
      · have hmdb : (k, w) ∈ db := (seekTag_sublist db _).mem hmem
        rw [← hwX2]
        exact hmdb
      · intro T2 hT2
        have hT2rows : (DBKey.txToCancel T2, DBValue.txidV X2) ∈
            seekTag db (DBKey.txToCancel 0) := (mem_eRows hs).mpr hT2
        have hres := hminF _ hT2rows (by simp [decodeTxidV])
        rw [hkT] at hres
        have : ¬(T2 < T) := by
          intro hc
          rw [(keyLtB_txToCancel_iff).mpr hc] at hres
          cases hres
        omega
    · rintro ⟨T, X, hkT, hmemdb, hX, hmin⟩
      refine ⟨X, hX, DBValue.txidV X, ?_⟩
      apply (find?_value_min _ hpe k _).mpr
      refine ⟨?_, by simp [decodeTxidV], ?_⟩
      · rw [hkT]
        exact (mem_eRows hs).mpr (hkT ▸ hmemdb)
      · intro e he hXe
        obtain ⟨T2, X2, hshape⟩ := eRows_shape hs hwf e he
        have hX2X : X2 = X := by
          rw [hshape] at hXe
          simpa [decodeTxidV] using hXe
        subst hX2X
        have hedb : (DBKey.txToCancel T2, DBValue.txidV X2) ∈ db := by
          rw [← hshape]
          exact (seekTag_sublist db _).mem he
        have hTle := hmin T2 hedb
        have hke : e.1 = DBKey.txToCancel T2 := congrArg Prod.fst hshape
        rw [hke, hkT, Bool.eq_false_iff]
        intro hc
        rw [keyLtB_txToCancel_iff] at hc
        omega

/-- C1 (amended): `deleteTransactions(txids, belowBlock)` deletes every
block-index row whose block is at least `belowBlock`; for each listed
transaction id it deletes the primary-record rows if any exist,
otherwise its payment sub-records if any exist, otherwise its cancel
sub-records (the three alternatives short-circuit), and it always
deletes the send-all sub-records and the reverse cancel-link keyed by
the listed id as target; in addition, for each listed id whose cancel
sub-records were deleted, it deletes the reverse cancel-link with the
smallest target key among those pointing at that cancel (later links to
the same cancel survive); nothing else is deleted. -/
theorem deleteTransactions_spec (db : DB) (txs : List Nat) (blk : Nat)
    (hs : DBSorted db) (hwf : DBWF db = true) (hnd : txs.Nodup) :
    ∀ k v, ((k, v) ∈ deleteTransactions db txs blk ↔
      ((k, v) ∈ db ∧ ¬delSpec db txs blk k)) := by
  intro k v
  simp only [deleteTransactions]
  rw [List.mem_filter]
  constructor
  · rintro ⟨hm, hp⟩
    refine ⟨hm, ?_⟩
    simp only [Bool.not_eq_true', decide_eq_false_iff_not] at hp
    intro hds
    exact hp ((delKeys_iff db txs blk hs hwf hnd k v hm).mpr hds)
  · rintro ⟨hm, hnds⟩
    refine ⟨hm, ?_⟩
    simp only [Bool.not_eq_true', decide_eq_false_iff_not]
    intro hdel
    exact hnds ((delKeys_iff db txs blk hs hwf hnd k v hm).mp hdel)

theorem deleteTransactions_spec_witness :
    ((DBKey.cancel 5 1 10 1, DBValue.cancelV 1 50) ∈
        deleteTransactions sampleCancelDb [5] 0 ↔
      ((DBKey.cancel 5 1 10 1, DBValue.cancelV 1 50) ∈ sampleCancelDb ∧
        ¬delSpec sampleCancelDb [5] 0 (DBKey.cancel 5 1 10 1))) :=
  deleteTransactions_spec sampleCancelDb [5] 0 (by decide) (by decide) (by decide)
    (DBKey.cancel 5 1 10 1) (DBValue.cancelV 1 50)

/-- C1 counterexample: transaction 1 owns both a primary record and a
payment sub-record; `deleteTransactions` deletes the primary record
but, because the scans of the per-txid sub-schemas short-circuit, the
payment sub-record keyed by the listed transaction id survives,
refuting the claim that every row keyed by a listed transaction id is
deleted in every sub-schema. -/
theorem deleteTransactions_counterexample :
    (1 : Nat) ∈ [1] ∧
    (DBKey.payment 1 1 10 1, DBValue.paymentV 0 "b" "s" 1 5) ∈
      deleteTransactions sampleDualDb [1] 20 ∧
    (DBKey.txRec 1 10 1 0, DBValue.num 7) ∉ deleteTransactions sampleDualDb [1] 20 := by
  decide
